import Mathlib

/-!
Verification development for the code-atlas analysis pipeline.

Shallow embedding of the core modules:
  * `src/core/cache.ts`        — incremental file cache (mtime fingerprints)
  * `src/core/extractor.ts`    — per-function metadata extraction and the
    structural (normalized-body) hash
  * `src/core/registry.ts`     — duplicate detection (exact hash groups and
    near-duplicate pairs via Levenshtein similarity over hash strings)
  * `src/core/dependencies.ts` — call-dependency graph construction and
    circular-dependency detection
  * `src/core/parser.ts` / `src/core/worker.ts` — the parallel parse
    coordinator and its worker protocol

External collaborators (the ts-morph syntax-tree engine, the `crypto`
digest, `fs` stat calls, `worker_threads` scheduling) are modelled as
oracle values passed explicitly: a syntax tree is a record of the query
results the pipeline reads from it, a stat is an optional
(mtimeMs, size) record, a digest is a `String → String` parameter, and a
worker run is a per-chunk outcome value.  All pipeline logic — everything
the claims are about — is translated from the source.
-/

namespace CodeAtlas

/-! ## Data model (`src/types/index.ts`) -/

/-- Function parameter metadata (`Parameter` in `src/types/index.ts`). -/
structure Parameter where
  name : String
  type : String
  optional : Bool
  defaultValue : Option String
deriving Repr, DecidableEq

/-- Metadata extracted from a function (`FunctionMetadata` in `src/types/index.ts`). -/
structure FunctionMetadata where
  name : String
  filePath : String
  line : Nat
  params : List Parameter
  returnType : String
  jsdoc : Option String
  isExported : Bool
  complexity : Nat
  astHash : String
deriving Repr, DecidableEq

/-- Reference to a function inside a duplicate group (`DuplicateReference`). -/
structure DuplicateReference where
  name : String
  filePath : String
  line : Nat
deriving Repr, DecidableEq

/-- Group of functions with identical or similar hashes (`DuplicateGroup`).
Similarity is a JS number; arithmetic on it here is exact rational
arithmetic standing in for IEEE doubles. -/
structure DuplicateGroup where
  astHash : String
  functions : List DuplicateReference
  similarity : ℚ
deriving Repr, DecidableEq

/-- Result of parsing one file (`ParseResult`). `error` is `none` on success. -/
structure ParseResult where
  filePath : String
  metadata : List FunctionMetadata
  error : Option String
deriving Repr, DecidableEq

/-! ## Incremental cache (`src/core/cache.ts`)

The `fs.stat` call is modelled as an oracle value of type `Option StatInfo`:
`none` is a stat failure (the `catch` branch), `some` carries the fields the
cache reads. The source stores only `stats.mtimeMs` in a cache entry; the
`size` field is carried in `StatInfo` so that claims about size-sensitivity
can be stated, but the code never reads it. -/

/-- The fields of an `fs.Stats` value the cache logic can observe.
`mtimeMs` is a JS number (milliseconds, possibly fractional), modelled
as an exact rational. -/
structure StatInfo where
  mtimeMs : ℚ
  size : Nat
deriving Repr, DecidableEq

/-- Cache entry (`CacheEntry` in `src/core/cache.ts`): file path, last
modification time in ms, and the cached function metadata. -/
structure CacheEntry where
  filePath : String
  mtime : ℚ
  functions : List FunctionMetadata
deriving Repr, DecidableEq

/-- The in-memory cache (`Cache` in `src/core/cache.ts`). `entries` is a
JS `Map` keyed by file path; modelled as an insertion-ordered association
list (only lookup and overwrite are used). -/
structure Cache where
  version : String
  entries : List (String × CacheEntry)
deriving Repr, DecidableEq

/-- JS `Map.prototype.get`: first (unique) binding for the key. -/
def mapGet {β : Type} (m : List (String × β)) (k : String) : Option β :=
  (m.find? (fun p => p.1 = k)).map (·.2)

/-- JS `Map.prototype.set`: overwrite in place if the key is present
(keeping its position), append otherwise. -/
def mapSet {β : Type} (m : List (String × β)) (k : String) (v : β) :
    List (String × β) :=
  if m.any (fun p => p.1 = k) then
    m.map (fun p => if p.1 = k then (k, v) else p)
  else
    m ++ [(k, v)]

/-- `isFileCached(filePath, cache)` from `src/core/cache.ts`: an entry must
exist and the current `stats.mtimeMs` must equal the stored `mtime`; a stat
failure (`st = none`) resolves to `false`. -/
def isFileCached (filePath : String) (cache : Cache) (st : Option StatInfo) :
    Bool :=
  match mapGet cache.entries filePath with
  | none => false
  | some entry =>
    match st with
    | none => false
    | some stats => stats.mtimeMs = entry.mtime

/-- `getCachedFunctions(filePath, cache)` from `src/core/cache.ts`. -/
def getCachedFunctions (filePath : String) (cache : Cache) :
    Option (List FunctionMetadata) :=
  (mapGet cache.entries filePath).map (·.functions)

/-- `updateCacheEntry(filePath, functions, cache)` from `src/core/cache.ts`:
on a successful stat, overwrite the entry with the current `mtimeMs`; a stat
failure is ignored and leaves the cache unchanged. -/
def updateCacheEntry (filePath : String) (functions : List FunctionMetadata)
    (cache : Cache) (st : Option StatInfo) : Cache :=
  match st with
  | none => cache
  | some stats =>
    { cache with
      entries := mapSet cache.entries filePath
        { filePath := filePath, mtime := stats.mtimeMs, functions := functions } }

/-- The empty cache (`loadCache` cold-start result). -/
def emptyCache : Cache := { version := "0.1.0", entries := [] }

/-! ## Metadata extractor (`src/core/extractor.ts`)

A ts-morph `FunctionDeclaration` is modelled as the record of the query
results the extractor reads from the external syntax-tree engine:
`getName()`, `getStartLineNumber()`, `getParameters()`,
`getReturnType().getText()`, `getJsDocs()`, the count of decision-point
descendants seen by `calculateComplexity`, `getBody()?.getText()`, the
texts and lines of `CallExpression` descendants, and the export queries.
`throwsOnExtract` models a metadata query throwing (the `try/catch` in
`extractFunctionMetadata`).  The `crypto` SHA-256 digest is a
`String → String` parameter. -/

/-- Oracle model of a ts-morph `FunctionDeclaration` (external engine). -/
structure FunctionDecl where
  name : Option String
  line : Nat
  params : List Parameter
  returnTypeText : String
  jsdocs : List String
  decisionPoints : Nat
  body : Option String
  callExprs : List (String × Nat)
  exportedFlag : Bool
  hasExportKeywordFlag : Bool
  throwsOnExtract : Bool
deriving Repr, DecidableEq

/-- JS `\w` (ASCII): letters, digits and underscore. -/
def isWordChar (c : Char) : Bool := c.isAlphanum || c = '_'

/-- JS `\s` restricted to its ASCII members: space, tab, newline, carriage
return, vertical tab, form feed. -/
def isJsWs (c : Char) : Bool :=
  c = ' ' || c = '\t' || c = '\n' || c = '\x0d' ||
    c = Char.ofNat 11 || c = Char.ofNat 12

/-- Maximal runs of characters with the same word/non-word class.  A JS
regex `\b` boundary falls exactly between two adjacent runs (or at either
end of the string next to a word run). -/
def classRuns : List Char → List (List Char)
  | [] => []
  | c :: rest =>
    (c :: rest.takeWhile (fun d => isWordChar d = isWordChar c)) ::
      classRuns (rest.dropWhile (fun d => isWordChar d = isWordChar c))
termination_by l => l.length
decreasing_by
  have : (List.dropWhile (fun d => decide (isWordChar d = isWordChar c))
      rest).length ≤ rest.length := (List.dropWhile_sublist _).length_le
  simp only [List.length_cons]
  omega

/-- `str.replace(new RegExp("\\b" + escapeRegex(name) + "\\b", "g"), repl)`
for an identifier `name` (a nonempty `\w`-run, the form ts-morph reports
for a declared parameter): with both ends `\b`-anchored, the matches are
exactly the maximal word runs equal to `name`, so the global replace maps
every such run to `repl` and leaves everything else unchanged. -/
def replaceWordAll (name repl : String) (s : String) : String :=
  String.mk
    (((classRuns s.data).map
      (fun r => if r = name.data then repl.data else r)).flatten)

/-- The `identifierMap` of `normalizeAST`: a JS `Map` built by
`params.forEach((param, i) => map.set(param.getName(), "_param" + i))`. -/
def buildIdentifierMap (params : List Parameter) : List (String × String) :=
  params.enum.foldl
    (fun m p => mapSet m p.2.name ("_param" ++ toString p.1)) []

/-- The `identifierMap.forEach` loop of `normalizeAST`: sequentially
replace each parameter name (insertion order) with its placeholder. -/
def applyIdentifierMap (m : List (String × String)) (s : String) : String :=
  m.foldl (fun acc kv => replaceWordAll kv.1 kv.2 acc) s

/-- First index of the two-character closer of a block comment: the least
`k` with `l[k] = '*'` and `l[k+1] = '/'`. -/
def findStarSlash : List Char → Option Nat
  | [] => none
  | c :: rest =>
    if c = '*' ∧ rest.head? = some '/' then some 0
    else (findStarSlash rest).map (· + 1)

/-- `normalized.replace(/\/\*[\s\S]*?\*\//g, "")`: drop each leftmost
non-greedy block comment; an unterminated opener never matches (and no
later opener can match either, as no closer exists after it). -/
def dropBlockComments : List Char → List Char
  | [] => []
  | '/' :: '*' :: rest =>
    match findStarSlash rest with
    | some k => dropBlockComments (rest.drop (k + 2))
    | none => '/' :: '*' :: rest
  | c :: rest => c :: dropBlockComments rest
termination_by l => l.length
decreasing_by
  all_goals simp only [List.length_cons, List.length_drop]
  · omega
  · omega

/-- `normalized.replace(/\/\/.*/g, "")`: drop from `//` to (excluding) the
end of the line. -/
def dropLineComments : List Char → List Char
  | [] => []
  | '/' :: '/' :: rest => dropLineComments (rest.dropWhile (· ≠ '\n'))
  | c :: rest => c :: dropLineComments rest
termination_by l => l.length
decreasing_by
  · have : (List.dropWhile (fun c => decide (c ≠ '\n')) rest).length ≤
        rest.length := (List.dropWhile_sublist _).length_le
    simp only [List.length_cons]
    omega
  · simp only [List.length_cons]
    omega


/-- `normalized.replace(/\s+/g, " ")`: collapse every whitespace run to a
single space. -/
def collapseWs : List Char → List Char
  | [] => []
  | c :: rest =>
    if isJsWs c then ' ' :: collapseWs (rest.dropWhile isJsWs)
    else c :: collapseWs rest
termination_by l => l.length
decreasing_by
  · have : (rest.dropWhile isJsWs).length ≤ rest.length :=
      (List.dropWhile_sublist _).length_le
    simp only [List.length_cons]
    omega
  · simp only [List.length_cons]
    omega

/-- JS `String.prototype.trim`: strip leading and trailing whitespace. -/
def jsTrim (s : String) : String :=
  String.mk (((s.data.dropWhile isJsWs).reverse.dropWhile isJsWs).reverse)

/-- `replace(/q[^q]*q/g, "qq")` for a quote character `q` (the string
literal blanking passes, with `q` one of double quote, single quote,
backtick): each leftmost pair of quotes together with everything between
them is replaced by an empty quoted literal; an unpaired final quote never
matches. -/
def blankQuoted (q : Char) : List Char → List Char
  | [] => []
  | c :: rest =>
    if c = q then
      match rest.findIdx? (· = q) with
      | some k => q :: q :: blankQuoted q (rest.drop (k + 1))
      | none => c :: rest
    else c :: blankQuoted q rest
termination_by l => l.length
decreasing_by
  · simp only [List.length_cons, List.length_drop]
    omega
  · simp only [List.length_cons]
    omega

/-- One match attempt of `/\b\d+\.?\d*\b/` at the head of `l`, which is
known to start with a digit at a `\b` boundary: returns the number of
characters the (greedy, backtracking) match consumes, or `none` when every
split fails the trailing `\b`.  `\d+` first takes the maximal digit run;
if a dot follows, `\.?\d*` extends through the dot and the following digit
run when the trailing boundary allows, backtracking to digits-plus-dot or
digits-only otherwise. -/
def numberMatchLen (l : List Char) : Option Nat :=
  let k := (l.takeWhile Char.isDigit).length
  match (l.drop k).head? with
  | none => some k
  | some c =>
    if c = '.' then
      let m := ((l.drop (k + 1)).takeWhile Char.isDigit).length
      if 0 < m then
        match (l.drop (k + 1 + m)).head? with
        | none => some (k + 1 + m)
        | some d => if isWordChar d then some (k + 1) else some (k + 1 + m)
      else
        match (l.drop (k + 1)).head? with
        | none => some k
        | some d => if isWordChar d then some (k + 1) else some k
    else
      if isWordChar c then none else some k

/-- `normalized.replace(/\b\d+\.?\d*\b/g, "0")`: global scan over the
original text; `prevWord` tracks whether the previous original character
is a `\w` character (for the leading `\b` test).  A successful match is
replaced by `0` and scanning resumes after it; after a failed attempt the
scan advances one character (later positions inside the same digit run
have no leading boundary and cannot match). -/
def zeroNumbers (prevWord : Bool) : List Char → List Char
  | [] => []
  | c :: rest =>
    if ¬ prevWord ∧ c.isDigit then
      match numberMatchLen (c :: rest) with
      | some len =>
        -- a match consumes at least the leading digit, so len is at least 1
        -- and dropping len characters from c :: rest drops len - 1 from rest
        '0' :: zeroNumbers (isWordChar ((c :: rest).get? (len - 1)).iget)
          (rest.drop (len - 1))
      | none => c :: zeroNumbers (isWordChar c) rest
    else c :: zeroNumbers (isWordChar c) rest
termination_by l => l.length
decreasing_by
  · simp only [List.length_cons, List.length_drop]
    omega
  · simp only [List.length_cons]
    omega
  · simp only [List.length_cons]
    omega

/-- `normalizeAST(func)` from `src/core/extractor.ts`: empty for a missing
body; otherwise, starting from `body.getText()`, (1) replace each declared
parameter name (a `\b`-anchored whole-word global replace, in
`identifierMap` insertion order) with `_param<i>`, (2) strip block then
line comments, (3) collapse whitespace runs and trim, (4) blank the
contents of double-quoted, single-quoted and backtick-quoted literals,
(5) replace number literals with `0`. -/
def normalizeAST (func : FunctionDecl) : String :=
  match func.body with
  | none => ""
  | some bodyText =>
    let n1 := applyIdentifierMap (buildIdentifierMap func.params) bodyText
    let n2 := String.mk (dropLineComments (dropBlockComments n1.data))
    let n3 := jsTrim (String.mk (collapseWs n2.data))
    let n4 := String.mk (blankQuoted (Char.ofNat 96)
      (blankQuoted (Char.ofNat 39) (blankQuoted (Char.ofNat 34) n3.data)))
    String.mk (zeroNumbers false n4.data)

/-- `generateASTHash(func)`: digest of the normalized body.  `digest` is
the external `crypto` SHA-256 hex digest, passed as a parameter. -/
def generateASTHash (digest : String → String) (func : FunctionDecl) :
    String :=
  digest (normalizeAST func)

/-- `calculateComplexity(func)`: 1 plus one per decision-point descendant
(if / conditional expression / case clause / for / for-in / for-of /
while / do / catch clause). -/
def calculateComplexity (func : FunctionDecl) : Nat :=
  1 + func.decisionPoints

/-- `isExported(func)` from `src/core/extractor.ts`. -/
def isExportedDecl (func : FunctionDecl) : Bool :=
  func.exportedFlag || func.hasExportKeywordFlag

/-- `extractJSDoc(func)`: trimmed description of the first JSDoc block;
`none` when there is no block or the description trims to the empty
string (`description || null`). -/
def extractJSDoc (func : FunctionDecl) : Option String :=
  match func.jsdocs with
  | [] => none
  | d :: _ => if jsTrim d = "" then none else some (jsTrim d)

/-- `extractFunctionMetadata(func, sourceFile)` from
`src/core/extractor.ts`: builds the metadata record, with
`isExported: true` hardcoded; returns `none` when a metadata query throws
(the `catch` branch). -/
def extractFunctionMetadata (digest : String → String) (func : FunctionDecl)
    (filePath : String) : Option FunctionMetadata :=
  if func.throwsOnExtract then none
  else some
    { name := func.name.getD "anonymous"
      filePath := filePath
      line := func.line
      params := func.params
      returnType := func.returnTypeText
      jsdoc := extractJSDoc func
      isExported := true
      complexity := calculateComplexity func
      astHash := generateASTHash digest func }

/-- `extractMetadata(sourceFile)` from `src/core/extractor.ts`: metadata of
the exported top-level function declarations only (the `isExported`
filter runs before `extractFunctionMetadata`). -/
def extractMetadata (digest : String → String) (filePath : String)
    (functions : List FunctionDecl) : List FunctionMetadata :=
  (functions.filter isExportedDecl).filterMap
    (fun f => extractFunctionMetadata digest f filePath)

/-! ## Worker-side extraction pass (`src/core/worker.ts`)

`parseFilesInWorker` iterates the chunk's files; per file,
`project.addSourceFileAtPath` either throws (modelled `Except.error msg`,
pushed to `errors`) or yields a source file, and then EVERY top-level
function declaration (`sourceFile.getFunctions()`, with no export filter)
is passed to `extractFunctionMetadata`. -/

/-- Result record a worker posts back (`WorkerResult` in
`src/core/worker.ts`). -/
structure WorkerResult where
  functions : List FunctionMetadata
  errors : List (String × String)
deriving Repr, DecidableEq

/-- Worker-side `parseFilesInWorker(filePaths)`: each input pairs a file
path with its parse outcome (`Except.error msg` models
`addSourceFileAtPath` throwing). -/
def workerParse (digest : String → String)
    (files : List (String × Except String (List FunctionDecl))) :
    WorkerResult :=
  files.foldl
    (fun acc file =>
      match file.2 with
      | Except.ok decls =>
        { acc with
          functions := acc.functions ++
            decls.filterMap (fun d => extractFunctionMetadata digest d file.1) }
      | Except.error msg =>
        { acc with errors := acc.errors ++ [(file.1, msg)] })
    ⟨[], []⟩

/-! ## Dependency graph (`src/core/dependencies.ts`) -/

/-- A recorded call (`FunctionCall` in `src/core/dependencies.ts`). -/
structure FunctionCall where
  callee : String
  line : Nat
deriving Repr, DecidableEq

/-- A graph node (`DependencyNode` in `src/core/dependencies.ts`). -/
structure DependencyNode where
  function : FunctionMetadata
  calls : List FunctionCall
  calledBy : List String
  isUsed : Bool
  hasDependencies : Bool
deriving Repr, DecidableEq

/-- Oracle model of a ts-morph `SourceFile`: its path and its top-level
function declarations in order. -/
structure SourceFile where
  filePath : String
  functions : List FunctionDecl
deriving Repr, DecidableEq

/-- `extractFunctionCalls(sourceFile, functionName)`:
`sourceFile.getFunction(name)` is the first top-level function declaration
with that name; of its `CallExpression` descendants, only those whose
callee expression text contains neither `.` nor `(` (bare identifiers) are
kept, with their call-site lines. -/
def extractFunctionCalls (sourceFile : SourceFile) (functionName : String) :
    List FunctionCall :=
  match sourceFile.functions.find? (fun f => f.name = some functionName) with
  | none => []
  | some func =>
    (func.callExprs.filter
      (fun ce => ¬ ce.1.data.contains '.' ∧ ¬ ce.1.data.contains '(')).map
      (fun ce => ⟨ce.1, ce.2⟩)

/-- State of the cycle-detection traversal: the `visited` and
`recursionStack` sets (membership-only, modelled as lists) and the
`cycles` accumulator, in push order. -/
structure DfsState where
  visited : List String
  stack : List String
  cycles : List (List String)
deriving Repr, DecidableEq

/-- The recursive `dfs(functionName, path)` of
`detectCircularDependencies`, with the mutated outer variables threaded as
`DfsState`.  On a node already on the recursion stack, the cycle
`path.slice(path.indexOf(fn)) ++ [fn]` is recorded (when the node is on
the current path).  Otherwise an unvisited node is marked visited, pushed
on the stack and the path, its calls to known nodes are traversed, and the
stack entry is removed again.  `fuel` bounds the recursion depth; every
nested call either returns without recursing or marks one more node
visited, so depth never exceeds the node count plus one and the fuel
passed by `detectCircularDependencies` is never exhausted. -/
def dfs (nodes : List (String × DependencyNode)) :
    Nat → String → List String → DfsState → DfsState
  | 0, _, _, s => s
  | fuel + 1, fn, path, s =>
    if fn ∈ s.stack then
      if fn ∈ path then
        { s with cycles := s.cycles ++ [path.drop (path.indexOf fn) ++ [fn]] }
      else s
    else if fn ∈ s.visited then s
    else
      let s1 : DfsState :=
        { visited := fn :: s.visited, stack := fn :: s.stack,
          cycles := s.cycles }
      let path1 := path ++ [fn]
      let calls := match mapGet nodes fn with
        | some node => node.calls
        | none => []
      let s2 := calls.foldl
        (fun acc call =>
          if (mapGet nodes call.callee).isSome then
            dfs nodes fuel call.callee path1 acc
          else acc) s1
      { s2 with stack := s2.stack.erase fn }

/-- The JS default sort comparator's order: lexicographic comparison of
the two strings' code-unit sequences. -/
def charsLe : List Char → List Char → Bool
  | [], _ => true
  | _ :: _, [] => false
  | a :: as, b :: bs =>
    if a.toNat < b.toNat then true
    else if b.toNat < a.toNat then false
    else charsLe as bs

/-- String comparison as JS `Array.prototype.sort`'s default comparator
performs it. -/
def strLe (a b : String) : Bool := charsLe a.data b.data

/-- Stable insertion into an ascending list. -/
def insertAsc (a : String) : List String → List String
  | [] => [a]
  | b :: rest => if strLe a b then a :: b :: rest else b :: insertAsc a rest

/-- `cycle.sort()`: JS `Array.prototype.sort` with the default (string)
comparator, which sorts the array in place in ascending order. -/
def sortStrings (l : List String) : List String :=
  l.foldr insertAsc []

/-- `cycle.join("->")`. -/
def joinArrow (c : List String) : String :=
  String.intercalate "->" c

/-- The duplicate-cycle filter: keep the first occurrence of each joined
signature.  By the time the filter's predicate runs, `cycle.sort()` has
already sorted every compared array in place, so the filter operates on
(and returns) the sorted arrays. -/
def dedupCyclesAux (seen : List String) :
    List (List String) → List (List String)
  | [] => []
  | c :: rest =>
    if joinArrow c ∈ seen then dedupCyclesAux seen rest
    else c :: dedupCyclesAux (joinArrow c :: seen) rest

/-- `detectCircularDependencies(nodes)`: run the depth-first traversal
from every not-yet-visited node (key insertion order), then apply the
in-place-sorting duplicate filter.  Note the returned lists are the
sorted arrays, not the recorded call paths. -/
def detectCircularDependencies (nodes : List (String × DependencyNode)) :
    List (List String) :=
  let final := (nodes.map (·.1)).foldl
    (fun s k => if k ∈ s.visited then s
      else dfs nodes (nodes.length + 1) k [] s)
    ⟨[], [], []⟩
  dedupCyclesAux [] (final.cycles.map sortStrings)

/-- The complete dependency graph (`DependencyGraph`). -/
structure DependencyGraph where
  nodes : List (String × DependencyNode)
  orphans : List DependencyNode
  entryPoints : List DependencyNode
  circularDependencies : List (List String)
deriving Repr, DecidableEq

/-- `buildDependencyGraph(functions, sourceFiles)`: one node per function
name (a later same-named function overwrites the earlier node); calls come
from `extractFunctionCalls` on the function's file when present; then
reverse edges set `isUsed`/`calledBy`; orphans are unused non-exported
nodes; entry points are exported nodes with no outgoing tracked calls;
cycles from `detectCircularDependencies`. -/
def buildDependencyGraph (functions : List FunctionMetadata)
    (sourceFiles : List (String × SourceFile)) : DependencyGraph :=
  let nodes0 := functions.foldl
    (fun m func =>
      let calls := match mapGet sourceFiles func.filePath with
        | some sourceFile => extractFunctionCalls sourceFile func.name
        | none => []
      mapSet m func.name
        { function := func, calls := calls, calledBy := [],
          isUsed := false, hasDependencies := 0 < calls.length })
    []
  let nodes := (nodes0.map (·.1)).foldl
    (fun m functionName =>
      match mapGet m functionName with
      | none => m
      | some node => node.calls.foldl
          (fun m2 call =>
            match mapGet m2 call.callee with
            | none => m2
            | some calledNode => mapSet m2 call.callee
                { calledNode with
                  calledBy := calledNode.calledBy ++ [functionName],
                  isUsed := true })
          m)
    nodes0
  { nodes := nodes
    orphans := (nodes.map (·.2)).filter
      (fun node => ¬ node.isUsed ∧ ¬ node.function.isExported)
    entryPoints := (nodes.map (·.2)).filter
      (fun node => node.function.isExported ∧ ¬ node.hasDependencies)
    circularDependencies := detectCircularDependencies nodes }

/-! ## Duplicate detection (`src/core/registry.ts`) -/

/-- The matrix recurrence of `levenshteinDistance(str1, str2)`: cell
`(i, j)` holds the distance between the first `i` characters of `str2`
and the first `j` characters of `str1`.  The source fills the matrix row
by row with exactly this recurrence (each cell is written once from the
three earlier cells; the `undefined` guards and the `?? 0` fallback never
fire since every read cell has been filled). -/
def levFun (s1 s2 : List Char) : Nat → Nat → Nat
  | 0, j => j
  | i + 1, 0 => i + 1
  | i + 1, j + 1 =>
    if s2.get? i = s1.get? j then levFun s1 s2 i j
    else 1 + min (min (levFun s1 s2 i j) (levFun s1 s2 i (j + 1)))
      (levFun s1 s2 (i + 1) j)
termination_by i j => (i, j)

/-- `levenshteinDistance(str1, str2)` from `src/core/registry.ts`. -/
def levenshteinDistance (str1 str2 : String) : Nat :=
  levFun str1.data str2.data str2.length str1.length

/-- `calculateSimilarity(str1, str2)` from `src/core/registry.ts`:
`(longer.length - distance) / longer.length`, `1.0` when both strings are
empty.  JS number arithmetic modelled as exact rationals. -/
def calculateSimilarity (str1 str2 : String) : ℚ :=
  let longer := if str2.length < str1.length then str1 else str2
  let shorter := if str2.length < str1.length then str2 else str1
  if longer.length = 0 then 1
  else ((longer.length : ℚ) - levenshteinDistance longer shorter) /
    longer.length

/-- A JS `Map<string, FunctionMetadata[]>` accumulation loop:
`existing = map.get(key) ?? []; existing.push(f); map.set(key, existing)`. -/
def groupByKey (key : FunctionMetadata → String)
    (functions : List FunctionMetadata) :
    List (String × List FunctionMetadata) :=
  functions.foldl
    (fun m f => mapSet m (key f) (((mapGet m (key f)).getD []) ++ [f])) []

/-- The ordered pairs `(group[i], group[j])`, `i < j`, in the enumeration
order of the two nested loops of `findNearDuplicates`. -/
def pairsAfter : List FunctionMetadata →
    List (FunctionMetadata × FunctionMetadata)
  | [] => []
  | x :: xs => xs.map (fun y => (x, y)) ++ pairsAfter xs

/-- `findNearDuplicates(functions)` from `src/core/registry.ts`: bucket by
the first 8 hash characters; within each bucket of size at least 2,
compare every `i < j` pair whose full hashes differ; emit a 2-member group
for every pair with similarity at least the 0.85 threshold. -/
def findNearDuplicates (functions : List FunctionMetadata) :
    List DuplicateGroup :=
  let hashPfxMap := groupByKey (fun f => String.mk (f.astHash.data.take 8))
    functions
  (hashPfxMap.map (·.2)).flatMap
    (fun group =>
      if group.length < 2 then []
      else (pairsAfter group).filterMap
        (fun pr =>
          if pr.1.astHash = pr.2.astHash then none
          else
            let similarity := calculateSimilarity pr.1.astHash pr.2.astHash
            if 0.85 ≤ similarity then
              some
                { astHash := "fuzzy_" ++ String.mk (pr.1.astHash.data.take 8)
                    ++ "_" ++ String.mk (pr.2.astHash.data.take 8)
                  functions :=
                    [⟨pr.1.name, pr.1.filePath, pr.1.line⟩,
                     ⟨pr.2.name, pr.2.filePath, pr.2.line⟩]
                  similarity := similarity }
            else none))

/-- `detectDuplicates(functions)` from `src/core/registry.ts`: group by
full hash; every group of size at least 2 becomes an exact group with
similarity 1.0; then append the near-duplicate groups. -/
def detectDuplicates (functions : List FunctionMetadata) :
    List DuplicateGroup :=
  let hashMap := groupByKey (·.astHash) functions
  let exact := (hashMap.filter (fun e => 1 < e.2.length)).map
    (fun e =>
      { astHash := e.1
        functions := e.2.map (fun f => ⟨f.name, f.filePath, f.line⟩)
        similarity := (1 : ℚ) })
  exact ++ findNearDuplicates functions

/-- The standard recursive definition of unit-cost
insert/delete/substitute Levenshtein edit distance (the reference the DP
implementation is checked against): distance to the empty string is the
other string's length; equal head characters cost nothing; otherwise one
plus the minimum over substitution, deletion and insertion. -/
def editDist : List Char → List Char → Nat
  | [], ys => ys.length
  | xs, [] => xs.length
  | x :: xs, y :: ys =>
    if x = y then editDist xs ys
    else 1 + min (min (editDist xs ys) (editDist (x :: xs) ys))
      (editDist xs (y :: ys))
termination_by xs ys => xs.length + ys.length
decreasing_by
  all_goals simp only [List.length_cons]
  all_goals omega

/-! ## Parallel parse coordinator (`src/core/parser.ts`)

`parseFiles` loads the cache, partitions the file list into cached and
uncached files, serves cached files from the cache, chunks the uncached
files, dispatches one worker per chunk and awaits `Promise.all` over the
per-chunk promises.  Worker scheduling is external: each chunk's outcome
is an oracle value — either the posted `WorkerResult` message, or a crash
before reporting (`crashed msg`: the worker `error` event, or a non-zero
exit, whose rejection message is `"Worker stopped with exit code " + code`).
`stats` is the stat oracle (one filesystem snapshot for the run); `numCpus`
is `os.cpus().length`.  `Promise.all` rejects as soon as any constituent
promise rejects; which crashed worker's message wins is timing-dependent,
and the model picks the first crashed chunk in chunk order (the theorems
below depend only on whether some dispatched worker crashed, never on
which). -/

/-- Outcome of one dispatched worker, as the coordinator observes it. -/
inductive WorkerOutcome where
  | reported (result : WorkerResult)
  | crashed (msg : String)
deriving Repr, DecidableEq

/-- The chunking loop of `parseFiles`:
`for (i = 0; i < n; i += chunkSize) chunks.push(slice(i, i + chunkSize))`.
(`chunkSize` is at least 1 whenever the loop runs; the `chunkSize = 0`
guard only keeps the model total.) -/
def chunksOf (chunkSize : Nat) : List String → List (List String)
  | [] => []
  | x :: rest =>
    if chunkSize = 0 then []
    else (x :: rest).take chunkSize ::
      chunksOf chunkSize ((x :: rest).drop chunkSize)
termination_by l => l.length
decreasing_by
  rename_i hcs
  simp only [List.length_cons, List.length_drop]
  omega

/-- The uncached subset of the input files, in input order (the partition
loop of `parseFiles`). -/
def uncachedFilesOf (filePaths : List String) (useCache : Bool)
    (cache : Cache) (stats : String → Option StatInfo) : List String :=
  filePaths.filter (fun fp => ¬ (useCache ∧ isFileCached fp cache (stats fp)))

/-- The chunks `parseFiles` dispatches:
`numWorkers = min(cpus, ceil(n / 10))`, `chunkSize = ceil(n / numWorkers)`. -/
def chunksFor (uncachedFiles : List String) (numCpus : Nat) :
    List (List String) :=
  let numWorkers := min numCpus ((uncachedFiles.length + 9) / 10)
  let chunkSize := (uncachedFiles.length + numWorkers - 1) / numWorkers
  chunksOf chunkSize uncachedFiles

/-- Coordinator-side `parseFilesInWorker(filePaths)`: on the worker's
message, group its functions by file path (JS `Map` accumulation) and fill
an empty entry for every chunk file without functions, resolving with the
map and the reported per-file errors; on a crash before reporting, the
promise rejects. -/
def parseFilesInWorker (filePaths : List String) (outcome : WorkerOutcome) :
    Except String
      (List (String × List FunctionMetadata) × List (String × String)) :=
  match outcome with
  | .crashed msg => Except.error msg
  | .reported result =>
    let functionsByFile := result.functions.foldl
      (fun m func => mapSet m func.filePath
        (((mapGet m func.filePath).getD []) ++ [func])) []
    let filled := filePaths.foldl
      (fun m fp => if (mapGet m fp).isSome then m else mapSet m fp [])
      functionsByFile
    Except.ok (filled, result.errors)

/-- `parseFiles(filePaths, useCache)` from `src/core/parser.ts`: cached
files are answered from the cache; if nothing is uncached the run ends
there; otherwise the uncached files are chunked, one worker per chunk is
awaited through `Promise.all` (a single crashed worker rejects the whole
call), and on success the per-file function lists and per-file error
records are appended to the results, feeding the cache per successful
file.  Returns the results together with the final cache state
(`saveCache` persists it). -/
def parseFiles (filePaths : List String) (useCache : Bool)
    (loadedCache : Cache) (stats : String → Option StatInfo)
    (numCpus : Nat) (outcomes : Nat → WorkerOutcome) :
    Except String (List ParseResult × Cache) :=
  let cache := if useCache then loadedCache else emptyCache
  let cachedFiles := filePaths.filter
    (fun fp => useCache ∧ isFileCached fp cache (stats fp))
  let uncachedFiles := uncachedFilesOf filePaths useCache cache stats
  let cachedResults : List ParseResult := cachedFiles.map
    (fun fp => ⟨fp, (getCachedFunctions fp cache).getD [], none⟩)
  if uncachedFiles.length = 0 then Except.ok (cachedResults, cache)
  else
    let chunks := chunksFor uncachedFiles numCpus
    let workerResults := chunks.enum.map
      (fun ic => parseFilesInWorker ic.2 (outcomes ic.1))
    match workerResults.findSome?
      (fun r => match r with
        | Except.error e => some e
        | Except.ok _ => none) with
    | some e => Except.error e
    | none =>
      let fin := workerResults.foldl
        (fun (acc : List ParseResult × Cache) wr =>
          match wr with
          | Except.error _ => acc
          | Except.ok res =>
            let acc1 := res.1.foldl
              (fun (a2 : List ParseResult × Cache) e =>
                (a2.1 ++ [⟨e.1, e.2, none⟩],
                 if useCache then updateCacheEntry e.1 e.2 a2.2 (stats e.1)
                 else a2.2))
              acc
            (acc1.1 ++ res.2.map (fun e => ⟨e.1, [], some e.2⟩), acc1.2))
        (cachedResults, cache)
      Except.ok fin

/-! ## Concrete instances used by the theorems below -/

/-- Placeholder metadata for a graph node whose traversal behavior depends
only on its name and call list. -/
def plainMeta (n : String) : FunctionMetadata :=
  { name := n, filePath := "t.ts", line := 1, params := [],
    returnType := "void", jsdoc := none, isExported := false,
    complexity := 1, astHash := "h" }

/-- A dependency node with the given name and outgoing calls. -/
def plainNode (n : String) (calls : List FunctionCall) : DependencyNode :=
  { function := plainMeta n, calls := calls, calledBy := [],
    isUsed := false, hasDependencies := 0 < calls.length }

/-- A node map whose call edges form the chain
`names[0] → names[1] → ⋯ → names[k]` and nothing else. -/
def chainNodes : List String → List (String × DependencyNode)
  | [] => []
  | [x] => [(x, plainNode x [])]
  | x :: y :: rest =>
    (x, plainNode x [⟨y, 1⟩]) :: chainNodes (y :: rest)

/-- A function declaration whose body calls exactly `callee` (oracle view
of a one-call function). -/
def oneCallDecl (n callee : String) : FunctionDecl :=
  { name := some n, line := 1, params := [], returnTypeText := "void",
    jsdocs := [], decisionPoints := 0, body := none,
    callExprs := [(callee, 2)], exportedFlag := false,
    hasExportKeywordFlag := false, throwsOnExtract := false }

/-- Source file with functions `a`, `b`, `c` and bare-name calls
`a → b`, `b → c`, `c → a`. -/
def abcSourceFile : SourceFile :=
  ⟨"abc.ts",
    [oneCallDecl "a" "b", oneCallDecl "b" "c", oneCallDecl "c" "a"]⟩

/-- Metadata record for a function of `abcSourceFile`. -/
def abcMeta (n : String) : FunctionMetadata :=
  { name := n, filePath := "abc.ts", line := 1, params := [],
    returnType := "void", jsdoc := none, isExported := false,
    complexity := 1, astHash := "h" ++ n }

/-- The dependency graph the pipeline builds for `abcSourceFile`. -/
def abcGraph : DependencyGraph :=
  buildDependencyGraph [abcMeta "a", abcMeta "b", abcMeta "c"]
    [("abc.ts", abcSourceFile)]

/-- A top-level function declaration carrying no export modifier. -/
def nonExportedDecl : FunctionDecl :=
  { name := some "helper", line := 3, params := [],
    returnTypeText := "void", jsdocs := [], decisionPoints := 0,
    body := some "return 1", callExprs := [], exportedFlag := false,
    hasExportKeywordFlag := false, throwsOnExtract := false }

/-- The metadata a file contributes in the worker loop: all of its
top-level declarations (no export filter) whose extraction succeeds;
nothing for a file whose parse threw. -/
def fileFunctions (digest : String → String)
    (file : String × Except String (List FunctionDecl)) :
    List FunctionMetadata :=
  match file.2 with
  | Except.ok decls =>
    decls.filterMap (fun d => extractFunctionMetadata digest d file.1)
  | Except.error _ => []

/-- The call list a chain node has: one call to the next name, none at the
chain's end. -/
def chainCalls : List String → List FunctionCall
  | [] => []
  | y :: _ => [⟨y, 1⟩]

/-- A recorded call edge of the graph as the traversal follows it: the
caller is a node whose call list names the callee, and the callee is a
node of the graph (`nodes.has(call.callee)`). -/
def isCallEdge (nodes : List (String × DependencyNode)) (x y : String) :
    Prop :=
  ∃ nx, mapGet nodes x = some nx ∧ (∃ call ∈ nx.calls, call.callee = y) ∧
    (mapGet nodes y).isSome = true

/-- Consecutive elements are recorded call edges. -/
def edgeChain (nodes : List (String × DependencyNode)) :
    List String → Prop
  | [] => True
  | [_] => True
  | x :: y :: rest => isCallEdge nodes x y ∧ edgeChain nodes (y :: rest)

/-- A closing name sequence in call-path order: at least two entries, the
first equals the last, and each consecutive pair is a recorded call edge. -/
def closingPath (nodes : List (String × DependencyNode))
    (p : List String) : Prop :=
  2 ≤ p.length ∧ p.head? = p.getLast? ∧ edgeChain nodes p

/-- A parameter-name identifier as ts-morph reports it: a nonempty string
of `\\w` characters (the regex model of `replaceWordAll` is exact for
these). -/
def identStr (s : String) : Prop :=
  s.data ≠ [] ∧ ∀ c ∈ s.data, isWordChar c = true

/-- Whether `name` occurs as a whole word (a maximal word run) in `s`. -/
def occursAsWord (name s : String) : Bool :=
  (classRuns s.data).contains name.data

/-- The effect of a sequence of whole-word replacements on one word token:
the first pair whose name matches rewrites it, and later pairs see the
rewritten token (JS performs the replaces sequentially on the string). -/
def tokenSubst (pairs : List (String × String)) (r : List Char) :
    List Char :=
  pairs.foldl (fun r pr => if r = pr.1.data then pr.2.data else r) r

/-- The (name, placeholder) pairs `_param<n>`, `_param<n+1>`, … assigned to
a name list in order. -/
def phPairs : Nat → List String → List (String × String)
  | _, [] => []
  | n, x :: rest => (x, "_param" ++ toString n) :: phPairs (n + 1) rest

/-- No placeholder collision: the string is not itself of the form
`_param<k>`. -/
def noPh (s : String) : Prop :=
  ∀ k : Nat, s ≠ "_param" ++ toString k

/-- The runs of a string listed with the invariant `classRuns`
establishes: each run nonempty and homogeneous in word class, adjacent
runs of different classes, and the first run's class differing from
`prev` (the class of the run before the listed ones, if any). -/
def runsOkFrom : Option Bool → List (List Char) → Prop
  | _, [] => True
  | prev, r :: rest =>
    r ≠ [] ∧ ∃ b, (∀ c ∈ r, isWordChar c = b) ∧ some b ≠ prev ∧
      runsOkFrom (some b) rest

/-- The comment-stripping, whitespace, string-literal and number stages of
`normalizeAST` that follow the identifier replacement (shared tail of the
pipeline). -/
def normTail (s : String) : String :=
  let n2 := String.mk (dropLineComments (dropBlockComments s.data))
  let n3 := jsTrim (String.mk (collapseWs n2.data))
  let n4 := String.mk (blankQuoted (Char.ofNat 96)
    (blankQuoted (Char.ofNat 39) (blankQuoted (Char.ofNat 34) n3.data)))
  String.mk (zeroNumbers false n4.data)

/-- A declaration `function f(x) ...` whose body text is `x + 1`. -/
def fDeclX : FunctionDecl :=
  ⟨some "f", 1, [⟨"x", "number", false, none⟩], "number", [], 0,
    some "x + 1", [], true, false, false⟩

/-- The same declaration with the parameter renamed to `p`: body `p + 1`. -/
def gDeclP : FunctionDecl :=
  ⟨some "g", 1, [⟨"p", "number", false, none⟩], "number", [], 0,
    some "p + 1", [], true, false, false⟩

deriving instance DecidableEq for Except

/-! ## Theorems -/

/-! ### Association-list (JS `Map`) helpers -/

theorem mem_mapSet {β : Type} {m : List (String × β)} {k : String} {v : β}
    {x : String × β} (h : x ∈ mapSet m k v) : x = (k, v) ∨ x ∈ m := by
  unfold mapSet at h
  split at h
  · rcases List.mem_map.mp h with ⟨p, hp, hx⟩
    by_cases hk : p.1 = k
    · left
      rw [← hx]
      simp [hk]
    · right
      rw [← hx]
      simpa [hk] using hp
  · rcases List.mem_append.mp h with h | h
    · right; exact h
    · left; simpa using h

theorem mapGet_mem {β : Type} {m : List (String × β)} {k : String} {v : β}
    (h : mapGet m k = some v) : (k, v) ∈ m := by
  unfold mapGet at h
  cases hf : m.find? (fun p => p.1 = k) with
  | none => rw [hf] at h; simp at h
  | some p =>
    rw [hf] at h
    have hv : p.2 = v := by
      simpa using h
    have hm := List.mem_of_find?_eq_some hf
    have hk := List.find?_some hf
    simp only [decide_eq_true_eq] at hk
    have : p = (k, v) := by
      cases p
      simp only at hk hv
      simp [hk, hv]
    rw [← this]
    exact hm

/-! ### Worker-side extraction (C2, C10) -/

theorem workerParse_foldl_functions (digest : String → String) :
    ∀ (files : List (String × Except String (List FunctionDecl)))
      (acc : WorkerResult),
      (files.foldl
        (fun acc file =>
          match file.2 with
          | Except.ok decls =>
            { acc with
              functions := acc.functions ++
                decls.filterMap
                  (fun d => extractFunctionMetadata digest d file.1) }
          | Except.error msg =>
            { acc with errors := acc.errors ++ [(file.1, msg)] })
        acc).functions
      = acc.functions ++ files.flatMap (fileFunctions digest) := by
  intro files
  induction files with
  | nil => intro acc; simp
  | cons file rest ih =>
    intro acc
    cases hr : file.2 with
    | ok decls =>
      simp only [List.foldl_cons, hr]
      rw [ih]
      simp [fileFunctions, hr, List.append_assoc]
    | error msg =>
      simp only [List.foldl_cons, hr]
      rw [ih]
      simp [fileFunctions, hr]

/-- C2 counterexample: a top-level function declaration carrying no export
modifier still yields a `FunctionMetadata` record in the worker-side
extraction pass (`parseFilesInWorker` in `src/core/worker.ts` iterates
`sourceFile.getFunctions()` with no export filter and
`extractFunctionMetadata` hardcodes `isExported: true`). -/
theorem workerParse_includes_nonexported :
    isExportedDecl nonExportedDecl = false ∧
    (workerParse (fun s => s)
      [("f.ts", Except.ok [nonExportedDecl])]).functions.length = 1 := by
  constructor
  · rfl
  · rfl

/-- C2 (amended): the worker-side extraction pass produces exactly one
record per top-level function declaration whose extraction succeeds,
regardless of whether the declaration carries an export modifier — the
exported-only filter of `extractMetadata` is not applied on the worker
path.  A record is in the result iff some file of the chunk parsed to a
declaration list containing a declaration that extracts to it. -/
theorem workerParse_functions_iff (digest : String → String)
    (files : List (String × Except String (List FunctionDecl)))
    (m : FunctionMetadata) :
    m ∈ (workerParse digest files).functions ↔
      ∃ file ∈ files, ∃ decls, file.2 = Except.ok decls ∧
        ∃ d ∈ decls, extractFunctionMetadata digest d file.1 = some m := by
  unfold workerParse
  rw [workerParse_foldl_functions]
  simp only [List.nil_append, List.mem_flatMap]
  constructor
  · rintro ⟨file, hfile, hm⟩
    unfold fileFunctions at hm
    cases hr : file.2 with
    | ok decls =>
      rw [hr] at hm
      simp only at hm
      rcases List.mem_filterMap.mp hm with ⟨d, hd, hex⟩
      exact ⟨file, hfile, decls, hr, d, hd, hex⟩
    | error msg =>
      rw [hr] at hm
      simp at hm
  · rintro ⟨file, hfile, decls, hr, d, hd, hex⟩
    refine ⟨file, hfile, ?_⟩
    unfold fileFunctions
    rw [hr]
    exact List.mem_filterMap.mpr ⟨d, hd, hex⟩

/-- C10: every record `extractFunctionMetadata` returns has
`isExported = true` (the field is hardcoded, the declaration's export
modifier is never consulted); consequently every graph
`buildDependencyGraph` builds from records produced solely by
`extractFunctionMetadata` — the worker pipeline's path — has an empty
orphans list, since an orphan must satisfy `!isExported`. -/
theorem extract_isExported_and_orphans_empty :
    (∀ (digest : String → String) (func : FunctionDecl) (fp : String)
      (m : FunctionMetadata),
      extractFunctionMetadata digest func fp = some m →
        m.isExported = true) ∧
    (∀ (functions : List FunctionMetadata)
      (sourceFiles : List (String × SourceFile)),
      (∀ f ∈ functions, f.isExported = true) →
        (buildDependencyGraph functions sourceFiles).orphans = []) := by
  constructor
  · intro digest func fp m h
    unfold extractFunctionMetadata at h
    split at h
    · exact absurd h (by simp)
    · have := Option.some.inj h
      rw [← this]
  · intro functions sourceFiles hexp
    have key : ∀ p ∈ (buildDependencyGraph functions sourceFiles).nodes,
        (p : String × DependencyNode).2.function.isExported = true := by
      unfold buildDependencyGraph
      simp only
      -- the first fold inserts nodes whose function field is in `functions`
      have step1 : ∀ (fs : List FunctionMetadata)
          (acc : List (String × DependencyNode)),
          (∀ f ∈ fs, f.isExported = true) →
          (∀ p ∈ acc, (p : String × DependencyNode).2.function.isExported
            = true) →
          ∀ p ∈ fs.foldl
            (fun m func =>
              let calls := match mapGet sourceFiles func.filePath with
                | some sourceFile => extractFunctionCalls sourceFile func.name
                | none => []
              mapSet m func.name
                { function := func, calls := calls, calledBy := [],
                  isUsed := false, hasDependencies := 0 < calls.length })
            acc,
            (p : String × DependencyNode).2.function.isExported = true := by
        intro fs
        induction fs with
        | nil => intro acc _ hacc p hp; exact hacc p hp
        | cons f rest ih =>
          intro acc hfs hacc p hp
          refine ih _ (fun g hg => hfs g (List.mem_cons_of_mem _ hg)) ?_ p hp
          intro q hq
          rcases mem_mapSet hq with hqe | hqm
          · rw [hqe]
            exact hfs f (List.mem_cons_self f rest)
          · exact hacc q hqm
      -- the reverse-edge fold preserves the property
      have step2 : ∀ (keys : List String)
          (acc : List (String × DependencyNode)),
          (∀ p ∈ acc, (p : String × DependencyNode).2.function.isExported
            = true) →
          ∀ p ∈ keys.foldl
            (fun m functionName =>
              match mapGet m functionName with
              | none => m
              | some node => node.calls.foldl
                  (fun m2 call =>
                    match mapGet m2 call.callee with
                    | none => m2
                    | some calledNode => mapSet m2 call.callee
                        { calledNode with
                          calledBy := calledNode.calledBy ++ [functionName],
                          isUsed := true })
                  m)
            acc,
            (p : String × DependencyNode).2.function.isExported = true := by
        intro keys
        induction keys with
        | nil => intro acc hacc p hp; exact hacc p hp
        | cons k rest ih =>
          intro acc hacc p hp
          refine ih _ ?_ p hp
          cases hg : mapGet acc k with
          | none => simpa [hg] using hacc
          | some node =>
            simp only [hg]
            have inner : ∀ (cs : List FunctionCall)
                (m2 : List (String × DependencyNode)),
                (∀ q ∈ m2,
                  (q : String × DependencyNode).2.function.isExported
                    = true) →
                ∀ q ∈ cs.foldl
                  (fun m2 call =>
                    match mapGet m2 call.callee with
                    | none => m2
                    | some calledNode => mapSet m2 call.callee
                        { calledNode with
                          calledBy := calledNode.calledBy ++ [k],
                          isUsed := true })
                  m2,
                  (q : String × DependencyNode).2.function.isExported
                    = true := by
              intro cs
              induction cs with
              | nil => intro m2 hm2 q hq; exact hm2 q hq
              | cons c crest cih =>
                intro m2 hm2 q hq
                refine cih _ ?_ q hq
                cases hgc : mapGet m2 c.callee with
                | none => simpa [hgc] using hm2
                | some calledNode =>
                  simp only [hgc]
                  intro r hr
                  rcases mem_mapSet hr with hre | hrm
                  · rw [hre]
                    simp only
                    exact hm2 (c.callee, calledNode) (mapGet_mem hgc)
                  · exact hm2 r hrm
            exact inner node.calls acc hacc
      intro p hp
      exact step2 _ _ (step1 functions [] hexp (by simp)) p hp
    unfold buildDependencyGraph at key ⊢
    simp only at key ⊢
    rw [List.filter_eq_nil_iff]
    intro node hnode
    rcases List.mem_map.mp hnode with ⟨p, hp, hpn⟩
    have := key p hp
    rw [hpn] at this
    simp [this]

theorem mapGet_mapSet_self {β : Type} (m : List (String × β)) (k : String)
    (v : β) : mapGet (mapSet m k v) k = some v := by
  unfold mapGet mapSet
  by_cases h : m.any (fun p => decide (p.1 = k)) = true
  · rw [if_pos h]
    induction m with
    | nil => simp at h
    | cons p rest ih =>
      by_cases hp : p.1 = k
      · simp [List.find?, hp]
      · simp only [List.any_cons, Bool.or_eq_true, decide_eq_true_eq] at h
        have h' : rest.any (fun p => decide (p.1 = k)) = true := by
          rcases h with h | h
          · exact absurd h hp
          · exact h
        simpa [List.find?, hp] using ih h'
  · rw [if_neg h]
    induction m with
    | nil => simp [List.find?]
    | cons p rest ih =>
      simp only [List.any_cons, Bool.or_eq_true, decide_eq_true_eq, not_or] at h
      have := ih (by simp [h.2])
      simpa [List.find?, h.1] using this


/-- C8 counterexample: the stored fingerprint is `mtimeMs` alone, not a
(timestamp, size) composite.  A cache entry is created while the file has
size 10; the file's size then changes to 999 with the modification time
unchanged, and `isFileCached` still returns `true` — refuting the claim
that a change to the file size makes it return `false`. -/
theorem isFileCached_ignores_size_change :
    isFileCached "a.ts"
      (updateCacheEntry "a.ts" [] emptyCache (some ⟨5, 10⟩))
      (some ⟨5, 999⟩) = true := by
  decide


/-- C8 (amended): `isFileCached(path, cache)` returns `true` iff an entry
for the path exists, the stat succeeds, and the file's current `mtimeMs`
equals the entry's stored `mtime`; in particular any stat failure resolves
to `false` and a modification-time change makes it return `false`.  File
size is not part of the stored fingerprint. -/
theorem isFileCached_iff (p : String) (c : Cache) (st : Option StatInfo) :
    isFileCached p c st = true ↔
      ∃ entry stats, mapGet c.entries p = some entry ∧ st = some stats ∧
        stats.mtimeMs = entry.mtime := by
  unfold isFileCached
  constructor
  · intro h
    cases hg : mapGet c.entries p with
    | none => rw [hg] at h; exact absurd h (by simp)
    | some entry =>
      rw [hg] at h
      cases hst : st with
      | none => rw [hst] at h; exact absurd h (by simp)
      | some stats =>
        rw [hst] at h
        exact ⟨entry, stats, rfl, rfl, by simpa using h⟩
  · rintro ⟨entry, stats, hg, hst, heq⟩
    rw [hg, hst]
    simpa using heq


/-- C9: `updateCacheEntry(path, records, cache)` immediately followed by
`isFileCached(path, cache)` returns `true`, provided the file's stat
succeeds and returns the same values at both calls (`some stats` passed to
both; no mutation of the file in between). -/
theorem isFileCached_after_update (p : String)
    (records : List FunctionMetadata) (c : Cache) (stats : StatInfo) :
    isFileCached p (updateCacheEntry p records c (some stats)) (some stats)
      = true := by
  unfold isFileCached updateCacheEntry
  simp only [mapGet_mapSet_self]
  simp


/-! ### Parallel parse coordinator (C1) -/

/-- C1 counterexample: with a single uncached file and its worker crashing
before reporting (worker `error` event with message `boom`), `parseFiles`
rejects the whole run — the crashed chunk's file does not surface as a
(path, message) failure record, contrary to the claim. -/
theorem parseFiles_rejects_on_worker_crash :
    parseFiles ["a.ts"] false emptyCache (fun _ => none) 4
      (fun _ => WorkerOutcome.crashed "boom") = Except.error "boom" := by
  simp [parseFiles, uncachedFilesOf, chunksFor, chunksOf, parseFilesInWorker,
    emptyCache, isFileCached, mapGet]

theorem parseFilesInWorker_crashed (chunk : List String) (msg : String) :
    parseFilesInWorker chunk (WorkerOutcome.crashed msg)
      = Except.error msg := rfl

/-- C1 (amended): `parseFiles` resolves (returns `ok`) iff every
dispatched worker reports a result; a worker that crashes before
reporting (worker `error` event or non-zero exit) makes the `Promise.all`
fan-in — and with it the whole `parseFiles` call — reject, so no
(path, message) failure records are produced for its chunk's files. -/
theorem parseFiles_ok_iff_all_workers_report
    (filePaths : List String) (useCache : Bool) (loadedCache : Cache)
    (stats : String → Option StatInfo) (numCpus : Nat)
    (outcomes : Nat → WorkerOutcome) :
    (∃ out, parseFiles filePaths useCache loadedCache stats numCpus outcomes
        = Except.ok out) ↔
      ∀ i, i < (chunksFor (uncachedFilesOf filePaths useCache
          (if useCache then loadedCache else emptyCache) stats)
          numCpus).length →
        ∃ res, outcomes i = WorkerOutcome.reported res := by
  unfold parseFiles
  simp only []
  by_cases hz : (uncachedFilesOf filePaths useCache
      (if useCache then loadedCache else emptyCache) stats).length = 0
  · rw [if_pos hz]
    constructor
    · intro _ i hi
      rw [List.length_eq_zero.mp hz] at hi
      simp [chunksFor, chunksOf] at hi
    · intro _
      exact ⟨_, rfl⟩
  · rw [if_neg hz]
    set uncached := uncachedFilesOf filePaths useCache
      (if useCache then loadedCache else emptyCache) stats with huncached
    set chunks := chunksFor uncached numCpus with hchunks
    set workerResults := chunks.enum.map
      (fun ic => parseFilesInWorker ic.2 (outcomes ic.1)) with hwr
    cases hfs : workerResults.findSome?
      (fun r => match r with
        | Except.error e => some e
        | Except.ok _ => none) with
    | some e =>
      simp only [hfs]
      constructor
      · rintro ⟨out, hout⟩
        exact absurd hout (by simp)
      · intro hall
        exfalso
        rcases List.exists_of_findSome?_eq_some hfs with ⟨r, hr, hmatch⟩
        rw [hwr] at hr
        rcases List.mem_map.mp hr with ⟨ic, hic, hric⟩
        rcases List.mem_enum hic with ⟨hlt, hic2⟩
        rcases hall ic.1 hlt with ⟨res, hres⟩
        have : r = parseFilesInWorker ic.2 (WorkerOutcome.reported res) := by
          rw [← hres, hric]
        rw [this] at hmatch
        unfold parseFilesInWorker at hmatch
        simp at hmatch
    | none =>
      simp only [hfs]
      constructor
      · intro _ i hi
        cases hout : outcomes i with
        | reported res => exact ⟨res, rfl⟩
        | crashed msg =>
          exfalso
          have hi2 : i < chunks.enum.length := by
            rw [List.enum_length]
            exact hi
          have henum : (i, chunks[i]) ∈ chunks.enum := by
            have hg : chunks.enum[i] = (i, chunks[i]) :=
              List.getElem_enum chunks i hi2
            rw [← hg]
            exact List.getElem_mem hi2
          have hmem : parseFilesInWorker chunks[i] (outcomes i)
              ∈ workerResults := by
            rw [hwr]
            exact List.mem_map_of_mem _ henum
          have hni := List.findSome?_eq_none_iff.mp hfs _ hmem
          rw [hout, parseFilesInWorker_crashed] at hni
          simp at hni
      · intro _
        exact ⟨_, rfl⟩

/-! ### Cycle detection on concrete and chain graphs (C4) -/

theorem mapGet_cons {β : Type} (k fn : String) (v : β)
    (m : List (String × β)) :
    mapGet ((k, v) :: m) fn = if k = fn then some v else mapGet m fn := by
  unfold mapGet
  by_cases h : k = fn
  · simp [List.find?, h]
  · simp [List.find?, h]

theorem chainNodes_keys :
    ∀ names : List String, (chainNodes names).map (·.1) = names := by
  intro names
  induction names with
  | nil => rfl
  | cons x rest ih =>
    cases rest with
    | nil => rfl
    | cons y rest2 =>
      simp only [chainNodes, List.map_cons]
      rw [ih]

theorem exists_suffix_of_mem {α : Type} {a : α} {l : List α} (h : a ∈ l) :
    ∃ t, (a :: t) <:+ l := by
  induction l with
  | nil => simp at h
  | cons b bs ih =>
    rcases List.mem_cons.mp h with h1 | h2
    · exact ⟨bs, by rw [h1]⟩
    · rcases ih h2 with ⟨t, ht⟩
      exact ⟨t, ht.trans (List.suffix_cons b bs)⟩

theorem chainNodes_get :
    ∀ (names pre t' : List String) (fn : String), names.Nodup →
      names = pre ++ fn :: t' →
      mapGet (chainNodes names) fn = some (plainNode fn (chainCalls t')) := by
  intro names pre
  induction pre generalizing names with
  | nil =>
    intro t' fn _ heq
    subst heq
    cases t' with
    | nil => simp [chainNodes, mapGet_cons, chainCalls]
    | cons y rest => simp [chainNodes, mapGet_cons, chainCalls]
  | cons p pre' ih =>
    intro t' fn hnd heq
    subst heq
    have hmem : fn ∈ pre' ++ fn :: t' := by simp
    have hne : p ≠ fn := by
      intro hpf
      have := (List.nodup_cons.mp hnd).1
      rw [hpf] at this
      exact this hmem
    have hnd' : (pre' ++ fn :: t').Nodup := (List.nodup_cons.mp hnd).2
    cases hrest : pre' ++ fn :: t' with
    | nil => exact absurd hrest (by simp)
    | cons r0 rest1 =>
      rw [hrest] at hnd'
      rw [List.cons_append, hrest]
      simp only [chainNodes]
      rw [mapGet_cons, if_neg hne]
      exact ih (r0 :: rest1) t' fn hnd' hrest.symm

theorem dfs_chain (names : List String) (hnd : names.Nodup) :
    ∀ (t' : List String) (fn : String), (fn :: t') <:+ names →
      ∀ (fuel : Nat) (path : List String) (s : DfsState),
        (∀ n ∈ fn :: t', n ∉ s.stack) →
        (dfs (chainNodes names) fuel fn path s).stack = s.stack ∧
        (dfs (chainNodes names) fuel fn path s).cycles = s.cycles := by
  intro t'
  induction t' with
  | nil =>
    intro fn hsuf fuel path s hstack
    cases fuel with
    | zero => exact ⟨rfl, rfl⟩
    | succ f =>
      have h1 : fn ∉ s.stack := hstack fn (by simp)
      rcases hsuf with ⟨pre, hpre⟩
      have hget := chainNodes_get names pre [] fn hnd hpre.symm
      by_cases h2 : fn ∈ s.visited
      · constructor <;> simp [dfs, h1, h2]
      · constructor <;>
          simp [dfs, h1, h2, hget, plainNode, chainCalls,
            List.erase_cons_head]
  | cons y rest ih =>
    intro fn hsuf fuel path s hstack
    cases fuel with
    | zero => exact ⟨rfl, rfl⟩
    | succ f =>
      have h1 : fn ∉ s.stack := hstack fn (by simp)
      rcases hsuf with ⟨pre, hpre⟩
      have hget := chainNodes_get names pre (y :: rest) fn hnd hpre.symm
      have hprey : (pre ++ [fn]) ++ (y :: rest) = names := by
        rw [← hpre]; simp
      have hgety := chainNodes_get names (pre ++ [fn]) rest y hnd hprey.symm
      have hndsuf : (fn :: y :: rest).Nodup := by
        have hsub : List.Sublist (fn :: y :: rest) names := by
          rw [← hpre]
          exact (List.suffix_append pre (fn :: y :: rest)).sublist
        exact List.Nodup.sublist hsub hnd
      by_cases h2 : fn ∈ s.visited
      · constructor <;> simp [dfs, h1, h2]
      · have hpre2 : ∀ n ∈ y :: rest,
            n ∉ (DfsState.mk (fn :: s.visited) (fn :: s.stack)
              s.cycles).stack := by
          intro n hn hcontra
          rcases List.mem_cons.mp hcontra with hceq | hcm
          · rw [hceq] at hn
            exact (List.nodup_cons.mp hndsuf).1 hn
          · exact hstack n (List.mem_cons_of_mem fn hn) hcm
        have hy := ih y ⟨pre ++ [fn], hprey⟩ f (path ++ [fn])
          (DfsState.mk (fn :: s.visited) (fn :: s.stack) s.cycles) hpre2
        constructor
        · simp only [dfs, if_neg h1, if_neg h2, hget]
          simp only [plainNode, chainCalls, List.foldl_cons, List.foldl_nil,
            hgety, Option.isSome_some, if_pos]
          rw [hy.1]
          simp [List.erase_cons_head]
        · simp only [dfs, if_neg h1, if_neg h2, hget]
          simp only [plainNode, chainCalls, List.foldl_cons, List.foldl_nil,
            hgety, Option.isSome_some, if_pos]
          rw [hy.2]

theorem chain_fold_cycles (names : List String) (hnd : names.Nodup)
    (fuelAmt : Nat) :
    ∀ (ks : List String), (∀ k ∈ ks, k ∈ names) →
      ∀ s : DfsState, s.stack = [] →
        ((ks.foldl
          (fun s k => if k ∈ s.visited then s
            else dfs (chainNodes names) fuelAmt k [] s) s).stack = [] ∧
         (ks.foldl
          (fun s k => if k ∈ s.visited then s
            else dfs (chainNodes names) fuelAmt k [] s) s).cycles
            = s.cycles) := by
  intro ks
  induction ks with
  | nil => intro _ s hs; exact ⟨hs, rfl⟩
  | cons k ks' ih =>
    intro hks s hs
    simp only [List.foldl_cons]
    by_cases hv : k ∈ s.visited
    · rw [if_pos hv]
      exact ih (fun j hj => hks j (List.mem_cons_of_mem k hj)) s hs
    · rw [if_neg hv]
      rcases exists_suffix_of_mem (hks k (by simp)) with ⟨t, ht⟩
      have hdfs := dfs_chain names hnd t k ht fuelAmt [] s
        (fun n _ hcontra => by rw [hs] at hcontra; simp at hcontra)
      have := ih (fun j hj => hks j (List.mem_cons_of_mem k hj))
        (dfs (chainNodes names) fuelAmt k [] s) (by rw [hdfs.1, hs])
      exact ⟨this.1, by rw [this.2, hdfs.2]⟩

/-- C4: on the three-node graph with bare-name call edges `a → b`, `b → c`,
`c → a` — built by `buildDependencyGraph` from `abcSourceFile` — the
cycle detector reports at least one cycle whose node set contains
`{a, b, c}`; and on every graph whose call edges form an acyclic chain of
distinct names, `detectCircularDependencies` returns the empty list. -/
theorem abc_cycle_and_chain_acyclic :
    (∃ c ∈ abcGraph.circularDependencies,
      "a" ∈ c ∧ "b" ∈ c ∧ "c" ∈ c) ∧
    (∀ names : List String, names.Nodup →
      detectCircularDependencies (chainNodes names) = []) := by
  constructor
  · decide
  · intro names hnd
    have hfold := chain_fold_cycles names hnd ((chainNodes names).length + 1)
      names (fun _ h => h) ⟨[], [], []⟩ rfl
    unfold detectCircularDependencies
    rw [chainNodes_keys]
    show dedupCyclesAux [] (List.map sortStrings
      (List.foldl (fun s k => if k ∈ s.visited then s
        else dfs (chainNodes names) ((chainNodes names).length + 1) k [] s)
        { visited := [], stack := [], cycles := [] } names).cycles) = []
    rw [hfold.2]
    rfl

/-! ### Soundness of the recorded cycles (C3) -/

theorem edgeChain_tail {nodes : List (String × DependencyNode)}
    {x : String} {t : List String} (h : edgeChain nodes (x :: t)) :
    edgeChain nodes t := by
  cases t with
  | nil => trivial
  | cons y r => exact h.2

theorem edgeChain_drop {nodes : List (String × DependencyNode)} :
    ∀ (n : Nat) (l : List String), edgeChain nodes l →
      edgeChain nodes (l.drop n) := by
  intro n
  induction n with
  | zero => intro l h; simpa using h
  | succ m ih =>
    intro l h
    cases l with
    | nil => trivial
    | cons x t => exact ih t (edgeChain_tail h)

theorem edgeChain_append_one {nodes : List (String × DependencyNode)} :
    ∀ (l : List String) (x y : String), edgeChain nodes l →
      l.getLast? = some x → isCallEdge nodes x y →
      edgeChain nodes (l ++ [y]) := by
  intro l
  induction l with
  | nil => intro x y _ hl _; simp at hl
  | cons a t ih =>
    intro x y hch hl he
    cases t with
    | nil =>
      have hax : a = x := by simpa using hl
      subst hax
      exact ⟨he, trivial⟩
    | cons b r =>
      rw [List.getLast?_cons_cons] at hl
      exact ⟨hch.1, ih x y hch.2 hl he⟩

theorem head?_drop_indexOf {a : String} :
    ∀ (l : List String), a ∈ l →
      (l.drop (l.indexOf a)).head? = some a := by
  intro l
  induction l with
  | nil => simp
  | cons b t ih =>
    intro h
    by_cases hb : b = a
    · subst hb
      simp [List.indexOf_cons_self]
    · have hmem : a ∈ t := by
        rcases List.mem_cons.mp h with h1 | h2
        · exact absurd h1.symm hb
        · exact h2
      have hidx : (b :: t).indexOf a = t.indexOf a + 1 := by
        simp [List.indexOf_cons, hb]
      rw [hidx]
      exact ih hmem

theorem dedupCyclesAux_subset :
    ∀ (seen : List String) (l : List (List String)) (c : List String),
      c ∈ dedupCyclesAux seen l → c ∈ l := by
  intro seen l
  induction l generalizing seen with
  | nil => intro c hc; simp [dedupCyclesAux] at hc
  | cons x rest ih =>
    intro c hc
    unfold dedupCyclesAux at hc
    split at hc
    · exact List.mem_cons_of_mem x (ih _ c hc)
    · rcases List.mem_cons.mp hc with h1 | h2
      · rw [h1]; simp
      · exact List.mem_cons_of_mem x (ih _ c h2)

theorem dfs_cycles_sound (nodes : List (String × DependencyNode)) :
    ∀ (fuel : Nat) (fn : String) (path : List String) (s : DfsState),
      edgeChain nodes (path ++ [fn]) →
      (∀ p ∈ s.cycles, closingPath nodes p) →
      ∀ p ∈ (dfs nodes fuel fn path s).cycles, closingPath nodes p := by
  intro fuel
  induction fuel with
  | zero => intro fn path s _ hs p hp; exact hs p hp
  | succ f ih =>
    intro fn path s hchain hs
    unfold dfs
    by_cases h1 : fn ∈ s.stack
    · rw [if_pos h1]
      by_cases h2 : fn ∈ path
      · rw [if_pos h2]
        intro p hp
        simp only at hp
        rcases List.mem_append.mp hp with hold | hnew
        · exact hs p hold
        · have hpc : p = path.drop (path.indexOf fn) ++ [fn] := by
            simpa using hnew
          subst hpc
          have hidx : path.indexOf fn ≤ path.length :=
            le_of_lt (List.indexOf_lt_length.mpr h2)
          have hdropeq : (path ++ [fn]).drop (path.indexOf fn)
              = path.drop (path.indexOf fn) ++ [fn] :=
            List.drop_append_of_le_length hidx
          have hchain2 : edgeChain nodes
              (path.drop (path.indexOf fn) ++ [fn]) := by
            rw [← hdropeq]
            exact edgeChain_drop _ _ hchain
          have hhead : (path.drop (path.indexOf fn)).head? = some fn :=
            head?_drop_indexOf path h2
          have hne : path.drop (path.indexOf fn) ≠ [] := by
            intro hnil
            rw [hnil] at hhead
            simp at hhead
          refine ⟨?_, ?_, hchain2⟩
          · have : 1 ≤ (path.drop (path.indexOf fn)).length :=
              List.length_pos.mpr hne
            simp only [List.length_append, List.length_singleton]
            omega
          · rw [List.head?_append_of_ne_nil _ hne, hhead,
              List.getLast?_concat]
      · rw [if_neg h2]
        exact hs
    · rw [if_neg h1]
      by_cases h2 : fn ∈ s.visited
      · rw [if_pos h2]
        exact hs
      · rw [if_neg h2]
        simp only
        cases hget : mapGet nodes fn with
        | none =>
          simp only [hget]
          intro p hp
          exact hs p hp
        | some nx =>
          simp only [hget]
          have hlast : (path ++ [fn]).getLast? = some fn :=
            List.getLast?_concat path
          have inner : ∀ (cs : List FunctionCall),
              (∀ call ∈ cs, call ∈ nx.calls) →
              ∀ (acc : DfsState),
                (∀ p ∈ acc.cycles, closingPath nodes p) →
                ∀ p ∈ (cs.foldl
                  (fun acc call =>
                    if (mapGet nodes call.callee).isSome then
                      dfs nodes f call.callee (path ++ [fn]) acc
                    else acc) acc).cycles, closingPath nodes p := by
            intro cs
            induction cs with
            | nil => intro _ acc hacc p hp; exact hacc p hp
            | cons call cs' cih =>
              intro hcs acc hacc
              simp only [List.foldl_cons]
              by_cases hcallee : (mapGet nodes call.callee).isSome = true
              · rw [if_pos hcallee]
                refine cih (fun d hd => hcs d (List.mem_cons_of_mem _ hd))
                  _ ?_
                have hedge : isCallEdge nodes fn call.callee :=
                  ⟨nx, hget, ⟨call, hcs call (by simp), rfl⟩, hcallee⟩
                have hchain3 : edgeChain nodes
                    ((path ++ [fn]) ++ [call.callee]) :=
                  edgeChain_append_one _ fn call.callee hchain hlast hedge
                exact ih call.callee (path ++ [fn]) _ hchain3 hacc
              · rw [if_neg hcallee]
                exact cih (fun d hd => hcs d (List.mem_cons_of_mem _ hd))
                  _ hacc
          intro p hp
          exact inner nx.calls (fun _ h => h)
            (DfsState.mk (fn :: s.visited) (fn :: s.stack) s.cycles) hs p hp

theorem detect_fold_sound (nodes : List (String × DependencyNode)) :
    ∀ (ks : List String) (s : DfsState),
      (∀ p ∈ s.cycles, closingPath nodes p) →
      ∀ p ∈ (ks.foldl
        (fun s k => if k ∈ s.visited then s
          else dfs nodes (nodes.length + 1) k [] s) s).cycles,
        closingPath nodes p := by
  intro ks
  induction ks with
  | nil => intro s hs p hp; exact hs p hp
  | cons k ks' ih =>
    intro s hs
    simp only [List.foldl_cons]
    by_cases hv : k ∈ s.visited
    · rw [if_pos hv]
      exact ih s hs
    · rw [if_neg hv]
      refine ih _ ?_
      exact dfs_cycles_sound nodes (nodes.length + 1) k [] s trivial hs

/-- C3 (amended): every list returned by `detectCircularDependencies` is
the in-place-sorted image of a recorded cycle: there is a closing name
sequence in call-path order (first element equals last, every consecutive
pair a recorded call edge between graph nodes) of which the returned list
is the ascending rearrangement — the duplicate filter's `cycle.sort()`
sorts each recorded array in place before it is returned, so the
call-path order itself is not preserved in the output. -/
theorem detectCircular_cycles_sorted_closing
    (nodes : List (String × DependencyNode)) (c : List String)
    (hc : c ∈ detectCircularDependencies nodes) :
    ∃ p, closingPath nodes p ∧ c = sortStrings p := by
  unfold detectCircularDependencies at hc
  simp only at hc
  have hc2 := dedupCyclesAux_subset _ _ _ hc
  rcases List.mem_map.mp hc2 with ⟨p, hp, hps⟩
  refine ⟨p, ?_, hps.symm⟩
  exact detect_fold_sound nodes _ ⟨[], [], []⟩ (by simp) p hp

/-- C3 witness: the three-node cycle graph; the returned list
`["a", "a", "b", "c"]` is the sorted image of a closing call path. -/
theorem detectCircular_cycles_sorted_closing_witness :
    ["a", "a", "b", "c"] ∈ detectCircularDependencies abcGraph.nodes ∧
    ∃ p, closingPath abcGraph.nodes p ∧
      ["a", "a", "b", "c"] = sortStrings p :=
  ⟨by decide,
   detectCircular_cycles_sorted_closing abcGraph.nodes _ (by decide)⟩

/-- C3 counterexample: the cycle list returned for the `a → b → c → a`
graph is `[["a", "a", "b", "c"]]`, whose single entry does not have its
first element equal to its last (and whose first consecutive pair
`(a, a)` is not a recorded call edge): the returned cycles are not
closing sequences in call-path order. -/
theorem detect_cycle_not_call_path :
    abcGraph.circularDependencies = [["a", "a", "b", "c"]] ∧
    ¬ (["a", "a", "b", "c"] : List String).head?
        = (["a", "a", "b", "c"] : List String).getLast? := by
  exact ⟨by decide, by decide⟩

/-! ### Levenshtein distance (C7, and support for C6) -/

theorem editDist_nil_left : ∀ ys : List Char, editDist [] ys = ys.length := by
  intro ys
  cases ys <;> simp [editDist]

theorem editDist_nil_right : ∀ xs : List Char, editDist xs [] = xs.length := by
  intro xs
  cases xs <;> simp [editDist]

theorem editDist_cons_cons (x y : Char) (xs ys : List Char) :
    editDist (x :: xs) (y :: ys) =
      if x = y then editDist xs ys
      else 1 + min (min (editDist xs ys) (editDist (x :: xs) ys))
        (editDist xs (y :: ys)) := by
  simp [editDist]

set_option maxHeartbeats 1000000 in
theorem editDist_concat_concat :
    ∀ (xs ys : List Char) (c d : Char),
      editDist (xs ++ [c]) (ys ++ [d]) =
        if c = d then editDist xs ys
        else 1 + min (min (editDist xs ys) (editDist (xs ++ [c]) ys))
          (editDist xs (ys ++ [d])) := by
  have main : ∀ (n : Nat) (xs ys : List Char) (c d : Char),
      xs.length + ys.length = n →
      editDist (xs ++ [c]) (ys ++ [d]) =
        if c = d then editDist xs ys
        else 1 + min (min (editDist xs ys) (editDist (xs ++ [c]) ys))
          (editDist xs (ys ++ [d])) := by
    intro n
    induction n using Nat.strong_induction_on with
    | _ n ihn =>
    intro xs ys c d hn
    cases xs with
    | nil =>
      cases ys with
      | nil =>
        simp only [List.nil_append]
        rw [editDist_cons_cons]
      | cons y ys' =>
        have h00 : editDist ([] ++ [c]) (ys' ++ [d]) =
            if c = d then editDist [] ys'
            else 1 + min (min (editDist [] ys') (editDist ([] ++ [c]) ys'))
              (editDist [] (ys' ++ [d])) :=
          ihn ys'.length (by simp only [List.length_nil,
            List.length_cons] at hn; omega) [] ys' c d (by simp)
        simp only [List.nil_append] at h00 ⊢
        rw [List.cons_append, editDist_cons_cons, editDist_cons_cons, h00]
        simp only [editDist_nil_left, List.length_append,
          List.length_singleton, List.length_cons]
        split_ifs <;> (try subst_vars) <;> (try simp_all) <;> omega
    | cons x xs' =>
      cases ys with
      | nil =>
        have h00 : editDist (xs' ++ [c]) ([] ++ [d]) =
            if c = d then editDist xs' []
            else 1 + min (min (editDist xs' []) (editDist (xs' ++ [c]) []))
              (editDist xs' ([] ++ [d])) :=
          ihn xs'.length (by simp only [List.length_nil,
            List.length_cons] at hn; omega) xs' [] c d (by simp)
        simp only [List.nil_append] at h00 ⊢
        rw [List.cons_append, editDist_cons_cons, editDist_cons_cons, h00]
        simp only [editDist_nil_left, editDist_nil_right,
          List.length_append, List.length_singleton, List.length_cons]
        split_ifs <;> (try subst_vars) <;> (try simp_all) <;> omega
      | cons y ys' =>
        simp only [List.length_cons] at hn
        have h00 : editDist (xs' ++ [c]) (ys' ++ [d]) =
            if c = d then editDist xs' ys'
            else 1 + min (min (editDist xs' ys') (editDist (xs' ++ [c]) ys'))
              (editDist xs' (ys' ++ [d])) :=
          ihn (xs'.length + ys'.length) (by omega) xs' ys' c d rfl
        have h10 : editDist ((x :: xs') ++ [c]) (ys' ++ [d]) =
            if c = d then editDist (x :: xs') ys'
            else 1 + min (min (editDist (x :: xs') ys')
                (editDist ((x :: xs') ++ [c]) ys'))
              (editDist (x :: xs') (ys' ++ [d])) :=
          ihn ((x :: xs').length + ys'.length)
            (by simp only [List.length_cons]; omega) (x :: xs') ys' c d rfl
        have h01 : editDist (xs' ++ [c]) ((y :: ys') ++ [d]) =
            if c = d then editDist xs' (y :: ys')
            else 1 + min (min (editDist xs' (y :: ys'))
                (editDist (xs' ++ [c]) (y :: ys')))
              (editDist xs' ((y :: ys') ++ [d])) :=
          ihn (xs'.length + (y :: ys').length)
            (by simp only [List.length_cons]; omega) xs' (y :: ys') c d rfl
        rw [List.cons_append] at h10
        rw [List.cons_append] at h01
        rw [List.cons_append, List.cons_append, editDist_cons_cons, h00,
          h10, h01]
        rw [editDist_cons_cons x y (xs' ++ [c]) ys']
        rw [editDist_cons_cons x y xs' (ys' ++ [d])]
        rw [editDist_cons_cons x y xs' ys']
        clear h00 h10 h01 hn ihn
        generalize editDist (x :: (xs' ++ [c])) ys' = eP1
        generalize editDist (x :: xs') (ys' ++ [d]) = eQ1
        generalize editDist (xs' ++ [c]) (y :: ys') = eP2
        generalize editDist xs' (y :: (ys' ++ [d])) = eQ2
        generalize editDist (xs' ++ [c]) ys' = eP
        generalize editDist xs' (ys' ++ [d]) = eQ
        generalize editDist (x :: xs') ys' = eB
        generalize editDist xs' (y :: ys') = eC
        generalize editDist xs' ys' = eA
        split_ifs
        · omega
        · omega
        · omega
        · apply congrArg (1 + ·)
          apply le_antisymm <;> simp only [le_min_iff, min_le_iff] <;> omega
  intro xs ys c d
  exact main (xs.length + ys.length) xs ys c d rfl

theorem editDist_comm : ∀ (xs ys : List Char), editDist xs ys = editDist ys xs := by
  have main : ∀ (n : Nat) (xs ys : List Char), xs.length + ys.length = n →
      editDist xs ys = editDist ys xs := by
    intro n
    induction n using Nat.strong_induction_on with
    | _ n ihn =>
    intro xs ys hn
    cases xs with
    | nil => rw [editDist_nil_left, editDist_nil_right]
    | cons x xs' =>
      cases ys with
      | nil => rw [editDist_nil_left, editDist_nil_right]
      | cons y ys' =>
        simp only [List.length_cons] at hn
        have hA := ihn (xs'.length + ys'.length) (by omega) xs' ys' rfl
        have hB := ihn (xs'.length + 1 + ys'.length) (by omega)
          (x :: xs') ys' (by simp only [List.length_cons])
        have hC := ihn (xs'.length + (ys'.length + 1)) (by omega)
          xs' (y :: ys') (by simp only [List.length_cons])
        rw [editDist_cons_cons, editDist_cons_cons]
        by_cases hxy : x = y
        · rw [if_pos hxy, if_pos hxy.symm, hA]
        · rw [if_neg hxy, if_neg (fun h => hxy h.symm), hA, hB, hC]
          omega
  intro xs ys
  exact main (xs.length + ys.length) xs ys rfl

theorem editDist_reverse :
    ∀ (xs ys : List Char), editDist xs.reverse ys.reverse = editDist xs ys := by
  have main : ∀ (n : Nat) (xs ys : List Char), xs.length + ys.length = n →
      editDist xs.reverse ys.reverse = editDist xs ys := by
    intro n
    induction n using Nat.strong_induction_on with
    | _ n ihn =>
    intro xs ys hn
    cases xs with
    | nil =>
      simp only [List.reverse_nil, editDist_nil_left, List.length_reverse]
    | cons x xs' =>
      cases ys with
      | nil =>
        simp only [List.reverse_nil, editDist_nil_right, List.length_reverse]
      | cons y ys' =>
        simp only [List.length_cons] at hn
        have hA := ihn (xs'.length + ys'.length) (by omega) xs' ys' rfl
        have hB := ihn (xs'.length + 1 + ys'.length) (by omega)
          (x :: xs') ys' (by simp only [List.length_cons])
        have hC := ihn (xs'.length + (ys'.length + 1)) (by omega)
          xs' (y :: ys') (by simp only [List.length_cons])
        rw [List.reverse_cons, List.reverse_cons,
          editDist_concat_concat, editDist_cons_cons]
        rw [hA]
        rw [show (xs'.reverse ++ [x]) = (x :: xs').reverse from
          (List.reverse_cons x xs').symm]
        rw [show (ys'.reverse ++ [y]) = (y :: ys').reverse from
          (List.reverse_cons y ys').symm]
        rw [hB, hC]
  intro xs ys
  exact main (xs.length + ys.length) xs ys rfl

theorem levFun_zero (s1 s2 : List Char) (j : Nat) :
    levFun s1 s2 0 j = j := by
  simp [levFun]

theorem levFun_succ_zero (s1 s2 : List Char) (i : Nat) :
    levFun s1 s2 (i + 1) 0 = i + 1 := by
  simp [levFun]

theorem levFun_succ_succ (s1 s2 : List Char) (i j : Nat) :
    levFun s1 s2 (i + 1) (j + 1) =
      if s2.get? i = s1.get? j then levFun s1 s2 i j
      else 1 + min (min (levFun s1 s2 i j) (levFun s1 s2 i (j + 1)))
        (levFun s1 s2 (i + 1) j) := by
  simp [levFun]

theorem levFun_editDist (s1 s2 : List Char) :
    ∀ (i j : Nat), i ≤ s2.length → j ≤ s1.length →
      levFun s1 s2 i j =
        editDist ((s2.take i).reverse) ((s1.take j).reverse) := by
  intro i
  induction i with
  | zero =>
    intro j _ hj
    rw [levFun_zero]
    simp only [List.take_zero, List.reverse_nil, editDist_nil_left,
      List.length_reverse, List.length_take]
    omega
  | succ i ihi =>
    intro j hi
    induction j with
    | zero =>
      intro _
      rw [levFun_succ_zero]
      simp only [List.take_zero, List.reverse_nil, editDist_nil_right,
        List.length_reverse, List.length_take]
      omega
    | succ j ihj =>
      intro hj
      have hi2 : i < s2.length := by omega
      have hj2 : j < s1.length := by omega
      have hrev2 : (s2.take (i + 1)).reverse
          = s2[i] :: (s2.take i).reverse := by
        rw [List.take_succ]
        simp [List.getElem?_eq_getElem hi2]
      have hrev1 : (s1.take (j + 1)).reverse
          = s1[j] :: (s1.take j).reverse := by
        rw [List.take_succ]
        simp [List.getElem?_eq_getElem hj2]
      have hget : (s2.get? i = s1.get? j) ↔ (s2[i] = s1[j]) := by
        rw [List.get?_eq_getElem?, List.get?_eq_getElem?,
          List.getElem?_eq_getElem hi2, List.getElem?_eq_getElem hj2]
        simp
      have h00 := ihi j (by omega) (by omega)
      have h01 := ihi (j + 1) (by omega) hj
      have h10 := ihj (by omega)
      rw [hrev1] at h01
      rw [hrev2] at h10
      rw [levFun_succ_succ, hrev2, hrev1, editDist_cons_cons, h00, h01,
        h10]
      by_cases hc : s2[i] = s1[j]
      · rw [if_pos (hget.mpr hc), if_pos hc]
      · rw [if_neg (fun h => hc (hget.mp h)), if_neg hc]
        omega

theorem levenshteinDistance_eq (a b : String) :
    levenshteinDistance a b = editDist a.data b.data := by
  unfold levenshteinDistance
  have h := levFun_editDist a.data b.data b.data.length a.data.length
    (le_refl _) (le_refl _)
  rw [show b.length = b.data.length from rfl,
    show a.length = a.data.length from rfl, h, List.take_length,
    List.take_length, editDist_reverse, editDist_comm]

theorem editDist_eq_zero_iff :
    ∀ (xs ys : List Char), editDist xs ys = 0 ↔ xs = ys := by
  intro xs
  induction xs with
  | nil =>
    intro ys
    rw [editDist_nil_left]
    constructor
    · intro h
      exact (List.length_eq_zero.mp h).symm
    · intro h
      rw [← h]
      rfl
  | cons x xs' ih =>
    intro ys
    cases ys with
    | nil =>
      rw [editDist_nil_right]
      simp
    | cons y ys' =>
      rw [editDist_cons_cons]
      by_cases hxy : x = y
      · rw [if_pos hxy]
        rw [ih ys']
        simp [hxy]
      · rw [if_neg hxy]
        constructor
        · intro h
          omega
        · intro h
          exact absurd (List.cons.inj h).1 hxy

/-- C7: `calculateSimilarity(a, b)` equals
`(max(len a, len b) − d(a, b)) / max(len a, len b)` where `d` — the DP
`levenshteinDistance` — coincides with the standard recursive definition
of unit-cost insert/delete/substitute edit distance (`editDist`), and the
similarity of two empty strings is defined as 1.0. -/
theorem calculateSimilarity_formula :
    (∀ a b : String, levenshteinDistance a b = editDist a.data b.data) ∧
    (∀ a b : String, max a.length b.length ≠ 0 →
      calculateSimilarity a b =
        ((max a.length b.length : ℚ) - editDist a.data b.data) /
          (max a.length b.length)) ∧
    calculateSimilarity "" "" = 1 := by
  refine ⟨levenshteinDistance_eq, ?_, by decide⟩
  intro a b h
  simp only [calculateSimilarity]
  by_cases hlt : b.length < a.length
  · rw [if_pos hlt, if_pos hlt]
    have hmax : max a.length b.length = a.length := by omega
    have hne : ¬ (a.length = 0) := by omega
    rw [if_neg hne, levenshteinDistance_eq, ← Nat.cast_max, hmax]
  · rw [if_neg hlt, if_neg hlt]
    have hmax : max a.length b.length = b.length := by omega
    have hne : ¬ (b.length = 0) := by omega
    rw [if_neg hne, levenshteinDistance_eq, editDist_comm, ← Nat.cast_max,
      hmax]

/-! ### Duplicate groups (C6) -/

theorem groupByKey_key (key : FunctionMetadata → String)
    (fs : List FunctionMetadata) :
    ∀ p ∈ groupByKey key fs, ∀ a ∈ p.2, key a = p.1 := by
  unfold groupByKey
  suffices h : ∀ (fs : List FunctionMetadata)
      (acc : List (String × List FunctionMetadata)),
      (∀ p ∈ acc, ∀ a ∈ p.2, key a = p.1) →
      ∀ p ∈ fs.foldl
        (fun m f => mapSet m (key f) (((mapGet m (key f)).getD []) ++ [f]))
        acc, ∀ a ∈ p.2, key a = p.1 by
    exact h fs [] (by simp)
  intro fs
  induction fs with
  | nil => intro acc hacc; exact hacc
  | cons f rest ih =>
    intro acc hacc
    simp only [List.foldl_cons]
    refine ih _ ?_
    intro p hp a ha
    rcases mem_mapSet hp with hpe | hpm
    · subst hpe
      simp only at ha ⊢
      cases hget : mapGet acc (key f) with
      | none =>
        rw [hget] at ha
        simp only [Option.getD_none, List.nil_append,
          List.mem_singleton] at ha
        rw [ha]
      | some l =>
        rw [hget] at ha
        simp only [Option.getD_some] at ha
        rcases List.mem_append.mp ha with h1 | h2
        · exact hacc (key f, l) (mapGet_mem hget) a h1
        · rw [List.mem_singleton.mp h2]
    · exact hacc p hpm a ha

theorem calculateSimilarity_lt_one (a b : String) (hab : a ≠ b) :
    calculateSimilarity a b < 1 := by
  have hd : ∀ (x y : String), x ≠ y → 1 ≤ levenshteinDistance x y := by
    intro x y hxy
    rcases Nat.eq_zero_or_pos (levenshteinDistance x y) with h0 | h1
    · rw [levenshteinDistance_eq] at h0
      exact absurd (String.ext (editDist_eq_zero_iff _ _ |>.mp h0)) hxy
    · exact h1
  simp only [calculateSimilarity]
  by_cases hlt : b.length < a.length
  · rw [if_pos hlt, if_pos hlt]
    have hne : ¬ (a.length = 0) := by omega
    rw [if_neg hne]
    have h1 := hd a b hab
    have hL : (0 : ℚ) < a.length := by
      have : 0 < a.length := by omega
      exact_mod_cast this
    rw [div_lt_one hL]
    have : (1 : ℚ) ≤ levenshteinDistance a b := by exact_mod_cast h1
    linarith
  · rw [if_neg hlt, if_neg hlt]
    have hne : ¬ (b.length = 0) := by
      intro hb0
      apply hab
      apply String.ext
      have hbz : b.data = [] := List.length_eq_zero.mp hb0
      have haz : a.data = [] := by
        have : a.length = 0 := by omega
        exact List.length_eq_zero.mp this
      rw [haz, hbz]
    rw [if_neg hne]
    have h1 := hd b a (fun h => hab h.symm)
    have hL : (0 : ℚ) < b.length := by
      have : 0 < b.length := by omega
      exact_mod_cast this
    rw [div_lt_one hL]
    have : (1 : ℚ) ≤ levenshteinDistance b a := by exact_mod_cast h1
    linarith

/-- C6: every group `detectDuplicates` returns is either an exact group —
similarity exactly 1.0, at least two members, all projected from records
sharing the group's full hash — or a near-duplicate group of exactly two
members whose full hashes differ and whose similarity lies in
`[0.85, 1.0)`. -/
theorem detectDuplicates_groups (functions : List FunctionMetadata)
    (g : DuplicateGroup) (hg : g ∈ detectDuplicates functions) :
    (g.similarity = 1 ∧ 2 ≤ g.functions.length ∧
      ∃ ms : List FunctionMetadata,
        g.functions = ms.map (fun f => ⟨f.name, f.filePath, f.line⟩) ∧
        2 ≤ ms.length ∧ ∀ m ∈ ms, m.astHash = g.astHash) ∨
    (g.functions.length = 2 ∧
      ∃ f1 f2 : FunctionMetadata, f1.astHash ≠ f2.astHash ∧
        g.similarity = calculateSimilarity f1.astHash f2.astHash ∧
        (0.85 : ℚ) ≤ g.similarity ∧ g.similarity < 1) := by
  unfold detectDuplicates at hg
  simp only at hg
  rcases List.mem_append.mp hg with hexact | hnear
  · left
    rcases List.mem_map.mp hexact with ⟨e, he, heg⟩
    have hfil := List.mem_filter.mp he
    have hlen : 1 < e.2.length := by
      have := hfil.2
      simpa using this
    have hkeys := groupByKey_key (fun f => f.astHash) functions e hfil.1
    subst heg
    refine ⟨rfl, by simpa using hlen, e.2, rfl, by omega, ?_⟩
    intro m hm
    exact hkeys m hm
  · right
    unfold findNearDuplicates at hnear
    rcases List.mem_flatMap.mp hnear with ⟨group, hgrp, hmem⟩
    by_cases hsmall : group.length < 2
    · rw [if_pos hsmall] at hmem
      simp at hmem
    · rw [if_neg hsmall] at hmem
      rcases List.mem_filterMap.mp hmem with ⟨pr, hpr, hmk⟩
      simp only at hmk
      by_cases hhash : pr.1.astHash = pr.2.astHash
      · rw [if_pos hhash] at hmk
        simp at hmk
      · rw [if_neg hhash] at hmk
        by_cases hsim : (0.85 : ℚ) ≤
            calculateSimilarity pr.1.astHash pr.2.astHash
        · rw [if_pos hsim] at hmk
          have hgv := Option.some.inj hmk
          subst hgv
          refine ⟨rfl, pr.1, pr.2, hhash, rfl, hsim,
            calculateSimilarity_lt_one _ _ hhash⟩
        · rw [if_neg hsim] at hmk
          simp at hmk

/-- C6 witness: two records with one shared hash form a single exact
group with similarity 1.0. -/
theorem detectDuplicates_groups_witness :
    (DuplicateGroup.mk "h"
      [⟨"f", "t.ts", 1⟩, ⟨"g", "t.ts", 1⟩] 1)
        ∈ detectDuplicates [plainMeta "f", plainMeta "g"] ∧
    (((DuplicateGroup.mk "h"
      [⟨"f", "t.ts", 1⟩, ⟨"g", "t.ts", 1⟩] 1).similarity = 1 ∧
      2 ≤ (DuplicateGroup.mk "h"
        [⟨"f", "t.ts", 1⟩, ⟨"g", "t.ts", 1⟩] 1).functions.length ∧
      ∃ ms : List FunctionMetadata,
        (DuplicateGroup.mk "h"
          [⟨"f", "t.ts", 1⟩, ⟨"g", "t.ts", 1⟩] 1).functions
          = ms.map (fun f => ⟨f.name, f.filePath, f.line⟩) ∧
        2 ≤ ms.length ∧ ∀ m ∈ ms, m.astHash = (DuplicateGroup.mk "h"
          [⟨"f", "t.ts", 1⟩, ⟨"g", "t.ts", 1⟩] 1).astHash) ∨
    ((DuplicateGroup.mk "h"
      [⟨"f", "t.ts", 1⟩, ⟨"g", "t.ts", 1⟩] 1).functions.length = 2 ∧
      ∃ f1 f2 : FunctionMetadata, f1.astHash ≠ f2.astHash ∧
        (DuplicateGroup.mk "h"
          [⟨"f", "t.ts", 1⟩, ⟨"g", "t.ts", 1⟩] 1).similarity
          = calculateSimilarity f1.astHash f2.astHash ∧
        (0.85 : ℚ) ≤ (DuplicateGroup.mk "h"
          [⟨"f", "t.ts", 1⟩, ⟨"g", "t.ts", 1⟩] 1).similarity ∧
        (DuplicateGroup.mk "h"
          [⟨"f", "t.ts", 1⟩, ⟨"g", "t.ts", 1⟩] 1).similarity < 1)) :=
  ⟨by decide, detectDuplicates_groups [plainMeta "f", plainMeta "g"] _
    (by decide)⟩

/-! ### Structural-hash normalization under parameter renaming (C5) -/

theorem takeWhile_append_all {p : Char → Bool} :
    ∀ (r t : List Char), (∀ a ∈ r, p a = true) →
      (r ++ t).takeWhile p = r ++ t.takeWhile p := by
  intro r t
  induction r with
  | nil => intro _; simp
  | cons a r' ih =>
    intro h
    simp only [List.cons_append, List.takeWhile_cons, h a (by simp),
      if_true]
    rw [ih (fun b hb => h b (List.mem_cons_of_mem a hb))]

theorem dropWhile_append_all {p : Char → Bool} :
    ∀ (r t : List Char), (∀ a ∈ r, p a = true) →
      (r ++ t).dropWhile p = t.dropWhile p := by
  intro r t
  induction r with
  | nil => intro _; simp
  | cons a r' ih =>
    intro h
    simp only [List.cons_append, List.dropWhile_cons, h a (by simp),
      if_true]
    exact ih (fun b hb => h b (List.mem_cons_of_mem a hb))

theorem takeWhile_head_neg {p : Char → Bool} :
    ∀ (t : List Char), (∀ h, t.head? = some h → p h = false) →
      t.takeWhile p = [] := by
  intro t h
  cases t with
  | nil => rfl
  | cons a t' =>
    simp [List.takeWhile_cons, h a rfl]

theorem dropWhile_head_neg {p : Char → Bool} :
    ∀ (t : List Char), (∀ h, t.head? = some h → p h = false) →
      t.dropWhile p = t := by
  intro t h
  cases t with
  | nil => rfl
  | cons a t' =>
    simp [List.dropWhile_cons, h a rfl]

theorem head_dropWhile_not {p : Char → Bool} :
    ∀ (l : List Char) (h : Char), (l.dropWhile p).head? = some h →
      p h = false := by
  intro l
  induction l with
  | nil => intro h hh; simp at hh
  | cons a l' ih =>
    intro h hh
    by_cases hp : p a = true
    · rw [List.dropWhile_cons, if_pos hp] at hh
      exact ih h hh
    · rw [List.dropWhile_cons, if_neg hp] at hh
      simp only [List.head?_cons, Option.some.injEq] at hh
      rw [← hh]
      exact Bool.eq_false_iff.mpr hp

theorem classRuns_flatten : ∀ (l : List Char), (classRuns l).flatten = l := by
  have main : ∀ (n : Nat) (l : List Char), l.length = n →
      (classRuns l).flatten = l := by
    intro n
    induction n using Nat.strong_induction_on with
    | _ n ihn =>
    intro l hn
    cases l with
    | nil => simp [classRuns]
    | cons c rest =>
      rw [show classRuns (c :: rest) =
          (c :: rest.takeWhile (fun d => isWordChar d = isWordChar c)) ::
            classRuns (rest.dropWhile (fun d => isWordChar d = isWordChar c))
        from by simp [classRuns]]
      rw [List.flatten_cons]
      have hlt : (rest.dropWhile
          (fun d => isWordChar d = isWordChar c)).length < n := by
        have : (rest.dropWhile (fun d =>
            decide (isWordChar d = isWordChar c))).length ≤ rest.length :=
          (List.dropWhile_sublist _).length_le
        simp only [List.length_cons] at hn
        omega
      rw [ihn _ hlt _ rfl]
      simp [List.takeWhile_append_dropWhile]
  intro l
  exact main l.length l rfl

theorem classRuns_ok :
    ∀ (l : List Char) (prev : Option Bool),
      (∀ h, l.head? = some h → some (isWordChar h) ≠ prev) →
      runsOkFrom prev (classRuns l) := by
  have main : ∀ (n : Nat) (l : List Char), l.length = n →
      ∀ (prev : Option Bool),
      (∀ h, l.head? = some h → some (isWordChar h) ≠ prev) →
      runsOkFrom prev (classRuns l) := by
    intro n
    induction n using Nat.strong_induction_on with
    | _ n ihn =>
    intro l hn prev hprev
    cases l with
    | nil => simp [classRuns, runsOkFrom]
    | cons c rest =>
      rw [show classRuns (c :: rest) =
          (c :: rest.takeWhile (fun d => isWordChar d = isWordChar c)) ::
            classRuns (rest.dropWhile (fun d => isWordChar d = isWordChar c))
        from by simp [classRuns]]
      refine ⟨by simp, isWordChar c, ?_, hprev c rfl, ?_⟩
      · intro a ha
        rcases List.mem_cons.mp ha with h1 | h2
        · rw [h1]
        · have := List.mem_takeWhile_imp h2
          simpa using this
      · have hlt : (rest.dropWhile
            (fun d => isWordChar d = isWordChar c)).length < n := by
          have : (rest.dropWhile (fun d =>
              decide (isWordChar d = isWordChar c))).length ≤ rest.length :=
            (List.dropWhile_sublist _).length_le
          simp only [List.length_cons] at hn
          omega
        refine ihn _ hlt _ rfl _ ?_
        intro h hh
        have := head_dropWhile_not _ h hh
        simp only [decide_eq_true_eq] at this
        intro hcontra
        have : isWordChar h = isWordChar c := Option.some.inj hcontra
        simp_all
  intro l prev hprev
  exact main l.length l rfl prev hprev

theorem tokenSubst_nil (r : List Char) : tokenSubst [] r = r := rfl

theorem tokenSubst_cons (pr : String × String)
    (rest : List (String × String)) (r : List Char) :
    tokenSubst (pr :: rest) r =
      tokenSubst rest (if r = pr.1.data then pr.2.data else r) := rfl

theorem tokenSubst_no_match :
    ∀ (prs : List (String × String)) (r : List Char),
      (∀ pr ∈ prs, r ≠ pr.1.data) → tokenSubst prs r = r := by
  intro prs
  induction prs with
  | nil => intro r _; rfl
  | cons pr rest ih =>
    intro r h
    rw [tokenSubst_cons, if_neg (h pr (by simp))]
    exact ih r (fun q hq => h q (List.mem_cons_of_mem pr hq))

theorem tokenSubst_result :
    ∀ (prs : List (String × String)) (r : List Char),
      tokenSubst prs r = r ∨
        ∃ pr ∈ prs, tokenSubst prs r = pr.2.data := by
  intro prs
  induction prs with
  | nil => intro r; left; rfl
  | cons pr rest ih =>
    intro r
    rw [tokenSubst_cons]
    by_cases hm : r = pr.1.data
    · rw [if_pos hm]
      rcases ih pr.2.data with h | ⟨q, hq, hqe⟩
      · right
        exact ⟨pr, by simp, h⟩
      · right
        exact ⟨q, List.mem_cons_of_mem pr hq, hqe⟩
    · rw [if_neg hm]
      rcases ih r with h | ⟨q, hq, hqe⟩
      · left; exact h
      · right
        exact ⟨q, List.mem_cons_of_mem pr hq, hqe⟩

theorem tokenSubst_class :
    ∀ (prs : List (String × String)),
      (∀ pr ∈ prs, identStr pr.1 ∧ identStr pr.2) →
      ∀ (r : List Char) (b : Bool), r ≠ [] →
        (∀ c ∈ r, isWordChar c = b) →
        tokenSubst prs r ≠ [] ∧ ∀ c ∈ tokenSubst prs r, isWordChar c = b := by
  intro prs
  induction prs with
  | nil => intro _ r b hne hb; exact ⟨hne, hb⟩
  | cons pr rest ih =>
    intro hid r b hne hb
    rw [tokenSubst_cons]
    by_cases hm : r = pr.1.data
    · rw [if_pos hm]
      have hid1 := (hid pr (by simp)).1
      have hid2 := (hid pr (by simp)).2
      have hbt : b = true := by
        rcases List.exists_mem_of_ne_nil r hne with ⟨c, hc⟩
        have h1 := hb c hc
        have h2 := hid1.2 c (by rw [← hm]; exact hc)
        rw [← h1, h2]
      refine ih (fun q hq => hid q (List.mem_cons_of_mem pr hq))
        pr.2.data b hid2.1 ?_
      intro c hc
      rw [hbt]
      exact hid2.2 c hc
    · rw [if_neg hm]
      exact ih (fun q hq => hid q (List.mem_cons_of_mem pr hq)) r b hne hb

theorem runsOk_map_tokenSubst :
    ∀ (prs : List (String × String)),
      (∀ pr ∈ prs, identStr pr.1 ∧ identStr pr.2) →
      ∀ (rs : List (List Char)) (prev : Option Bool),
        runsOkFrom prev rs →
        runsOkFrom prev (rs.map (tokenSubst prs)) := by
  intro prs hid rs
  induction rs with
  | nil => intro prev _; exact trivial
  | cons r rest ih =>
    intro prev hok
    rcases hok with ⟨hne, b, hb, hbp, hrest⟩
    have hc := tokenSubst_class prs hid r b hne hb
    exact ⟨hc.1, b, hc.2, hbp, ih _ hrest⟩

theorem runsOk_flatten_classRuns :
    ∀ (rs : List (List Char)) (prev : Option Bool),
      runsOkFrom prev rs → classRuns rs.flatten = rs := by
  intro rs
  induction rs with
  | nil => intro _ _; simp [classRuns]
  | cons r rest ih =>
    intro prev hok
    rcases hok with ⟨hne, b, hb, _, hrest⟩
    cases r with
    | nil => exact absurd rfl hne
    | cons c r' =>
      have hbc : isWordChar c = b := hb c (by simp)
      rw [List.flatten_cons, List.cons_append]
      rw [show classRuns (c :: (r' ++ rest.flatten)) =
          (c :: (r' ++ rest.flatten).takeWhile
            (fun d => isWordChar d = isWordChar c)) ::
            classRuns ((r' ++ rest.flatten).dropWhile
              (fun d => isWordChar d = isWordChar c))
        from by simp [classRuns]]
      have hallr' : ∀ a ∈ r', (fun d =>
          decide (isWordChar d = isWordChar c)) a = true := by
        intro a ha
        have := hb a (List.mem_cons_of_mem c ha)
        simp [this, hbc]
      have hheadfail : ∀ h, rest.flatten.head? = some h →
          (fun d => decide (isWordChar d = isWordChar c)) h = false := by
        intro h hh
        cases rest with
        | nil => simp at hh
        | cons r2 rest2 =>
          rcases hrest with ⟨hne2, b2, hb2, hbp2, _⟩
          cases r2 with
          | nil => exact absurd rfl hne2
          | cons c2 r2' =>
            rw [List.flatten_cons, List.cons_append] at hh
            simp only [List.head?_cons, Option.some.injEq] at hh
            have hb2c : isWordChar c2 = b2 := hb2 c2 (by simp)
            have hbne : b2 ≠ b := fun hcontra =>
              hbp2 (by rw [hcontra])
            rw [← hh]
            simp [hb2c, hbc]
            intro hcontra
            exact hbne hcontra
      rw [takeWhile_append_all r' rest.flatten hallr',
        takeWhile_head_neg rest.flatten hheadfail,
        dropWhile_append_all r' rest.flatten hallr',
        dropWhile_head_neg rest.flatten hheadfail]
      rw [ih _ hrest]
      simp

theorem classRuns_map_tokenSubst
    (prs : List (String × String))
    (hid : ∀ pr ∈ prs, identStr pr.1 ∧ identStr pr.2) (l : List Char) :
    classRuns ((classRuns l).map (tokenSubst prs)).flatten
      = (classRuns l).map (tokenSubst prs) := by
  refine runsOk_flatten_classRuns _ none ?_
  refine runsOk_map_tokenSubst prs hid _ none ?_
  exact classRuns_ok l none (fun h _ => by simp)

theorem applyIdentifierMap_tokens :
    ∀ (prs : List (String × String)),
      (∀ pr ∈ prs, identStr pr.1 ∧ identStr pr.2) →
      ∀ (s : String),
        (applyIdentifierMap prs s).data
          = ((classRuns s.data).map (tokenSubst prs)).flatten := by
  intro prs
  induction prs with
  | nil =>
    intro _ s
    show s.data = _
    have hmap : ∀ rs : List (List Char), rs.map (tokenSubst []) = rs := by
      intro rs
      induction rs with
      | nil => rfl
      | cons r rest ih => simp [ih, tokenSubst_nil]
    rw [hmap]
    exact (classRuns_flatten s.data).symm
  | cons pr rest ih =>
    intro hid s
    show (applyIdentifierMap rest (replaceWordAll pr.1 pr.2 s)).data = _
    rw [ih (fun q hq => hid q (List.mem_cons_of_mem pr hq))]
    have hdata : (replaceWordAll pr.1 pr.2 s).data
        = ((classRuns s.data).map (tokenSubst [pr])).flatten := by
      show (((classRuns s.data).map
        (fun r => if r = pr.1.data then pr.2.data else r)).flatten) = _
      congr 1
    have hone : ∀ pr2 ∈ [pr], identStr pr2.1 ∧ identStr pr2.2 := by
      intro pr2 hpr2
      rw [List.mem_singleton.mp hpr2]
      exact hid pr (by simp)
    rw [hdata, classRuns_map_tokenSubst [pr] hone s.data,
      List.map_map]
    congr 1

theorem str_eq_of_data (a b : String) (h : a.data = b.data) : a = b :=
  congrArg String.mk h

theorem digitChar_word : ∀ k < 10, isWordChar (Nat.digitChar k) = true := by
  decide

theorem toDigitsCore_word :
    ∀ (fuel n : Nat) (acc : List Char),
      (∀ c ∈ acc, isWordChar c = true) →
      ∀ c ∈ Nat.toDigitsCore 10 fuel n acc, isWordChar c = true := by
  intro fuel
  induction fuel with
  | zero => intro n acc hacc; simpa [Nat.toDigitsCore] using hacc
  | succ fuel ih =>
    intro n acc hacc
    rw [Nat.toDigitsCore]
    have hd : isWordChar (Nat.digitChar (n % 10)) = true :=
      digitChar_word (n % 10) (Nat.mod_lt _ (by norm_num))
    by_cases h10 : n / 10 = 0
    · simp only [h10, if_pos rfl]
      intro c hc
      rcases List.mem_cons.mp hc with h | h
      · rw [h]; exact hd
      · exact hacc c h
    · simp only [if_neg h10]
      refine ih _ _ ?_
      intro c hc
      rcases List.mem_cons.mp hc with h | h
      · rw [h]; exact hd
      · exact hacc c h

theorem toString_nat_data (n : Nat) :
    (toString n).data = Nat.toDigits 10 n := rfl

theorem ph_data (n : Nat) :
    ("_param" ++ toString n).data = "_param".data ++ (toString n).data := by
  simp

theorem identStr_ph (n : Nat) : identStr ("_param" ++ toString n) := by
  constructor
  · rw [ph_data]; simp
  · intro c hc
    rw [ph_data] at hc
    rcases List.mem_append.mp hc with h | h
    · have hall : ∀ c ∈ "_param".data, isWordChar c = true := by decide
      exact hall c h
    · rw [toString_nat_data] at h
      exact toDigitsCore_word (n + 1) n [] (by intro c h; simp at h) c h

theorem noPh_of_head (s : String) (h : s.data.head? ≠ some '_') : noPh s := by
  intro k he
  apply h
  rw [he, ph_data]
  rfl

theorem phPairs_fst_mem :
    ∀ (l : List String) (n : Nat) (pr : String × String),
      pr ∈ phPairs n l → pr.1 ∈ l := by
  intro l
  induction l with
  | nil => intro n pr h; simp [phPairs] at h
  | cons x rest ih =>
    intro n pr h
    rcases List.mem_cons.mp h with h | h
    · rw [h]; exact List.mem_cons_self _ _
    · exact List.mem_cons_of_mem _ (ih (n + 1) pr h)

theorem phPairs_identStr :
    ∀ (l : List String), (∀ x ∈ l, identStr x) →
      ∀ (n : Nat), ∀ pr ∈ phPairs n l, identStr pr.1 ∧ identStr pr.2 := by
  intro l
  induction l with
  | nil => intro _ n pr h; simp [phPairs] at h
  | cons x rest ih =>
    intro hl n pr h
    rcases List.mem_cons.mp h with h | h
    · rw [h]
      exact ⟨hl x (List.mem_cons_self _ _), identStr_ph n⟩
    · exact ih (fun y hy => hl y (List.mem_cons_of_mem _ hy)) (n + 1) pr h

theorem tokenSubst_ph_fix (n m : Nat) (l : List String)
    (h : ∀ q ∈ l, noPh q) :
    tokenSubst (phPairs n l) ("_param" ++ toString m).data
      = ("_param" ++ toString m).data := by
  apply tokenSubst_no_match
  intro pr hpr he
  exact h pr.1 (phPairs_fst_mem l n pr hpr) m (str_eq_of_data _ _ he).symm

theorem occursAsWord_false_runs (p bf : String)
    (h : occursAsWord p bf = false) :
    ∀ r ∈ classRuns bf.data, r ≠ p.data := by
  intro r hr he
  rw [he] at hr
  rw [show occursAsWord p bf = (classRuns bf.data).contains p.data from rfl,
    List.contains_eq_any_beq] at h
  simp only [List.any_eq_false, beq_iff_eq] at h
  exact h p.data hr rfl

theorem tokenSubst_rename :
    ∀ (xs : List String) (ps : List String) (n : Nat) (r : List Char),
      xs.length = ps.length →
      xs.Nodup → ps.Nodup →
      (∀ p ∈ ps, p ∉ xs) →
      (∀ x ∈ xs, noPh x) → (∀ p ∈ ps, noPh p) →
      (∀ p ∈ ps, r ≠ p.data) →
      tokenSubst (phPairs n ps) (tokenSubst (xs.zip ps) r)
        = tokenSubst (phPairs n xs) r := by
  intro xs
  induction xs with
  | nil =>
    intro ps n r hlen _ _ _ _ _ _
    have hps : ps = [] := List.eq_nil_of_length_eq_zero hlen.symm
    subst hps; rfl
  | cons x xs' ih =>
    intro ps n r hlen hndx hndp hdisj hphx hphp hru
    cases ps with
    | nil => simp at hlen
    | cons p ps' =>
      have hlen' : xs'.length = ps'.length := by
        simpa using hlen
      have hndx' : xs'.Nodup := (List.nodup_cons.mp hndx).2
      have hndp' : ps'.Nodup := (List.nodup_cons.mp hndp).2
      have hpnotin : p ∉ ps' := (List.nodup_cons.mp hndp).1
      have hdisj' : ∀ q ∈ ps', q ∉ xs' := fun q hq hqx =>
        hdisj q (List.mem_cons_of_mem _ hq) (List.mem_cons_of_mem _ hqx)
      have hphx' : ∀ y ∈ xs', noPh y := fun y hy =>
        hphx y (List.mem_cons_of_mem _ hy)
      have hphp' : ∀ q ∈ ps', noPh q := fun q hq =>
        hphp q (List.mem_cons_of_mem _ hq)
      rw [show (x :: xs').zip (p :: ps') = (x, p) :: xs'.zip ps' from rfl,
        tokenSubst_cons]
      by_cases hr : r = x.data
      · rw [if_pos hr]
        have hinner : tokenSubst (xs'.zip ps') p.data = p.data := by
          apply tokenSubst_no_match
          intro pr hpr he
          have h1 : pr.1 ∈ xs' := (List.of_mem_zip hpr).1
          exact hdisj p (List.mem_cons_self _ _)
            (List.mem_cons_of_mem _ ((str_eq_of_data _ _ he) ▸ h1))
        rw [hinner,
          show phPairs n (p :: ps')
            = (p, "_param" ++ toString n) :: phPairs (n + 1) ps' from rfl,
          tokenSubst_cons, if_pos rfl,
          show phPairs n (x :: xs')
            = (x, "_param" ++ toString n) :: phPairs (n + 1) xs' from rfl,
          tokenSubst_cons, if_pos (by rw [hr]),
          tokenSubst_ph_fix (n + 1) n ps' hphp',
          tokenSubst_ph_fix (n + 1) n xs' hphx']
      · rw [if_neg hr]
        have hinner : tokenSubst (xs'.zip ps') r ≠ p.data := by
          rcases tokenSubst_result (xs'.zip ps') r with h | ⟨pr, hpr, he⟩
          · rw [h]; exact hru p (List.mem_cons_self _ _)
          · rw [he]
            intro hcontra
            have h2 : pr.2 ∈ ps' := (List.of_mem_zip hpr).2
            exact hpnotin ((str_eq_of_data _ _ hcontra) ▸ h2)
        rw [show phPairs n (p :: ps')
            = (p, "_param" ++ toString n) :: phPairs (n + 1) ps' from rfl,
          tokenSubst_cons, if_neg hinner,
          show phPairs n (x :: xs')
            = (x, "_param" ++ toString n) :: phPairs (n + 1) xs' from rfl,
          tokenSubst_cons, if_neg hr]
        exact ih ps' (n + 1) r hlen' hndx' hndp' hdisj' hphx' hphp'
          (fun q hq => hru q (List.mem_cons_of_mem _ hq))

theorem buildMap_aux :
    ∀ (ps : List Parameter) (n : Nat) (acc : List (String × String)),
      (∀ pr ∈ acc, pr.1 ∉ ps.map Parameter.name) →
      (ps.map Parameter.name).Nodup →
      (List.enumFrom n ps).foldl
        (fun m p => mapSet m p.2.name ("_param" ++ toString p.1)) acc
        = acc ++ phPairs n (ps.map Parameter.name) := by
  intro ps
  induction ps with
  | nil => intro n acc _ _; simp [phPairs]
  | cons p ps' ih =>
    intro n acc hacc hnd
    rw [show List.enumFrom n (p :: ps') = (n, p) :: List.enumFrom (n + 1) ps'
      from rfl, List.foldl_cons]
    have hnotkey : acc.any (fun q => q.1 = p.name) = false := by
      rw [List.any_eq_false]
      intro q hq
      simp only [decide_eq_true_eq]
      intro he
      exact hacc q hq (by
        rw [he]
        exact List.mem_map_of_mem Parameter.name (List.mem_cons_self _ _))
    have hset : mapSet acc p.name ("_param" ++ toString n)
        = acc ++ [(p.name, "_param" ++ toString n)] := by
      rw [mapSet, hnotkey]
      simp
    rw [hset]
    have hnd' : (ps'.map Parameter.name).Nodup := (List.nodup_cons.mp hnd).2
    have hnotin : p.name ∉ ps'.map Parameter.name := (List.nodup_cons.mp hnd).1
    have hacc' : ∀ pr ∈ acc ++ [(p.name, "_param" ++ toString n)],
        pr.1 ∉ ps'.map Parameter.name := by
      intro pr hpr
      rcases List.mem_append.mp hpr with h | h
      · intro hcontra
        exact hacc pr h (List.mem_cons_of_mem _ hcontra)
      · rw [List.mem_singleton.mp h]
        exact hnotin
    rw [ih (n + 1) _ hacc' hnd', List.append_assoc]
    rfl

theorem buildIdentifierMap_eq_phPairs (params : List Parameter)
    (hnd : (params.map Parameter.name).Nodup) :
    buildIdentifierMap params = phPairs 0 (params.map Parameter.name) := by
  have h := buildMap_aux params 0 []
    (fun pr hpr => absurd hpr (List.not_mem_nil pr)) hnd
  rw [List.nil_append] at h
  exact h

theorem normalizeAST_some (f : FunctionDecl) (b : String)
    (hb : f.body = some b) :
    normalizeAST f
      = normTail (applyIdentifierMap (buildIdentifierMap f.params) b) := by
  unfold normalizeAST
  rw [hb]
  rfl

theorem normalizeAST_param_rename
    (f g : FunctionDecl) (bf bg : String)
    (hbf : f.body = some bf) (hbg : g.body = some bg)
    (hlen : (f.params.map Parameter.name).length
      = (g.params.map Parameter.name).length)
    (hndf : (f.params.map Parameter.name).Nodup)
    (hndg : (g.params.map Parameter.name).Nodup)
    (hdisj : ∀ p ∈ g.params.map Parameter.name,
      p ∉ f.params.map Parameter.name)
    (hidf : ∀ x ∈ f.params.map Parameter.name, identStr x)
    (hidg : ∀ p ∈ g.params.map Parameter.name, identStr p)
    (hphf : ∀ x ∈ f.params.map Parameter.name, noPh x)
    (hphg : ∀ p ∈ g.params.map Parameter.name, noPh p)
    (hocc : ∀ p ∈ g.params.map Parameter.name, occursAsWord p bf = false)
    (hbody : classRuns bg.data = (classRuns bf.data).map
      (tokenSubst ((f.params.map Parameter.name).zip
        (g.params.map Parameter.name)))) :
    normalizeAST f = normalizeAST g := by
  rw [normalizeAST_some f bf hbf, normalizeAST_some g bg hbg]
  congr 1
  apply str_eq_of_data
  rw [buildIdentifierMap_eq_phPairs f.params hndf,
    buildIdentifierMap_eq_phPairs g.params hndg,
    applyIdentifierMap_tokens _ (phPairs_identStr _ hidf 0) bf,
    applyIdentifierMap_tokens _ (phPairs_identStr _ hidg 0) bg,
    hbody, List.map_map]
  congr 1
  apply List.map_congr_left
  intro r hr
  exact (tokenSubst_rename _ _ 0 r hlen hndf hndg hdisj hphf hphg
    (fun q hq => occursAsWord_false_runs q bf (hocc q hq) r hr)).symm

theorem detectDuplicates_pair_exact (mf mg : FunctionMetadata)
    (h : mf.astHash = mg.astHash) :
    detectDuplicates [mf, mg]
      = [⟨mf.astHash,
          [⟨mf.name, mf.filePath, mf.line⟩, ⟨mg.name, mg.filePath, mg.line⟩],
          1⟩] := by
  have hgroup : groupByKey (·.astHash) [mf, mg]
      = [(mf.astHash, [mf, mg])] := by
    simp [groupByKey, mapSet, mapGet, ← h]
  rw [show detectDuplicates [mf, mg]
      = ((groupByKey (·.astHash) [mf, mg]).filter
          (fun e => 1 < e.2.length)).map
          (fun e => ⟨e.1, e.2.map (fun f => ⟨f.name, f.filePath, f.line⟩),
            (1 : ℚ)⟩)
        ++ findNearDuplicates [mf, mg] from rfl]
  have hnear : findNearDuplicates [mf, mg] = [] := by
    have hgroup8 : groupByKey (fun f => String.mk (f.astHash.data.take 8))
        [mf, mg] = [(String.mk (mf.astHash.data.take 8), [mf, mg])] := by
      simp [groupByKey, mapSet, mapGet, ← h]
    simp only [findNearDuplicates]
    rw [hgroup8]
    simp [pairsAfter, h]
  rw [hnear, hgroup]
  simp

theorem classRuns_xp1 :
    classRuns "x + 1".data = [['x'], [' ', '+', ' '], ['1']] := by
  rw [show "x + 1".data
    = ([['x'], [' ', '+', ' '], ['1']] : List (List Char)).flatten from rfl]
  exact runsOk_flatten_classRuns _ none
    ⟨by decide, true, by decide, by decide,
      ⟨by decide, false, by decide, by decide,
        ⟨by decide, true, by decide, by decide, trivial⟩⟩⟩

theorem classRuns_pp1 :
    classRuns "p + 1".data = [['p'], [' ', '+', ' '], ['1']] := by
  rw [show "p + 1".data
    = ([['p'], [' ', '+', ' '], ['1']] : List (List Char)).flatten from rfl]
  exact runsOk_flatten_classRuns _ none
    ⟨by decide, true, by decide, by decide,
      ⟨by decide, false, by decide, by decide,
        ⟨by decide, true, by decide, by decide, trivial⟩⟩⟩

/-- **C5.** For a pair of function declarations `f`, `g` whose bodies are
character-identical except for consistently renamed parameter names — the
body of `g` is the body of `f` with every whole-word occurrence of the
i-th parameter name of `f` replaced by the i-th parameter name of `g`,
the two name lists being duplicate-free identifier words, disjoint from
each other, not of the placeholder form `_param<k>`, and the new names
not occurring as words in `f`'s body — the structural hash of `f` equals
the structural hash of `g`, and any metadata records carrying those two
hashes are reported by `detectDuplicates` as a single exact duplicate
group with similarity 1.0. -/
theorem structural_hash_param_rename
    (digest : String → String) (f g : FunctionDecl) (bf bg : String)
    (hbf : f.body = some bf) (hbg : g.body = some bg)
    (hlen : (f.params.map Parameter.name).length
      = (g.params.map Parameter.name).length)
    (hndf : (f.params.map Parameter.name).Nodup)
    (hndg : (g.params.map Parameter.name).Nodup)
    (hdisj : ∀ p ∈ g.params.map Parameter.name,
      p ∉ f.params.map Parameter.name)
    (hidf : ∀ x ∈ f.params.map Parameter.name, identStr x)
    (hidg : ∀ p ∈ g.params.map Parameter.name, identStr p)
    (hphf : ∀ x ∈ f.params.map Parameter.name, noPh x)
    (hphg : ∀ p ∈ g.params.map Parameter.name, noPh p)
    (hocc : ∀ p ∈ g.params.map Parameter.name, occursAsWord p bf = false)
    (hbody : classRuns bg.data = (classRuns bf.data).map
      (tokenSubst ((f.params.map Parameter.name).zip
        (g.params.map Parameter.name)))) :
    generateASTHash digest f = generateASTHash digest g ∧
      ∀ mf mg : FunctionMetadata,
        mf.astHash = generateASTHash digest f →
        mg.astHash = generateASTHash digest g →
        detectDuplicates [mf, mg]
          = [⟨mf.astHash,
              [⟨mf.name, mf.filePath, mf.line⟩,
               ⟨mg.name, mg.filePath, mg.line⟩], 1⟩] := by
  have hn : normalizeAST f = normalizeAST g :=
    normalizeAST_param_rename f g bf bg hbf hbg hlen hndf hndg hdisj
      hidf hidg hphf hphg hocc hbody
  have hhash : generateASTHash digest f = generateASTHash digest g := by
    show digest (normalizeAST f) = digest (normalizeAST g)
    rw [hn]
  refine ⟨hhash, ?_⟩
  intro mf mg hmf hmg
  apply detectDuplicates_pair_exact
  rw [hmf, hmg, hhash]

theorem structural_hash_param_rename_witness :
    generateASTHash (fun s => s) fDeclX = generateASTHash (fun s => s) gDeclP ∧
      ∀ mf mg : FunctionMetadata,
        mf.astHash = generateASTHash (fun s => s) fDeclX →
        mg.astHash = generateASTHash (fun s => s) gDeclP →
        detectDuplicates [mf, mg]
          = [⟨mf.astHash,
              [⟨mf.name, mf.filePath, mf.line⟩,
               ⟨mg.name, mg.filePath, mg.line⟩], 1⟩] :=
  structural_hash_param_rename (fun s => s) fDeclX gDeclP "x + 1" "p + 1"
    rfl rfl (by decide) (by decide) (by decide) (by decide)
    (by
      intro x hx
      rw [show fDeclX.params.map Parameter.name = ["x"] from rfl,
        List.mem_singleton] at hx
      subst hx
      exact ⟨by decide, by decide⟩)
    (by
      intro p hp
      rw [show gDeclP.params.map Parameter.name = ["p"] from rfl,
        List.mem_singleton] at hp
      subst hp
      exact ⟨by decide, by decide⟩)
    (by
      intro x hx
      rw [show fDeclX.params.map Parameter.name = ["x"] from rfl,
        List.mem_singleton] at hx
      subst hx
      exact noPh_of_head _ (by decide))
    (by
      intro p hp
      rw [show gDeclP.params.map Parameter.name = ["p"] from rfl,
        List.mem_singleton] at hp
      subst hp
      exact noPh_of_head _ (by decide))
    (by
      intro p hp
      rw [show gDeclP.params.map Parameter.name = ["p"] from rfl,
        List.mem_singleton] at hp
      subst hp
      show (classRuns "x + 1".data).contains "p".data = false
      rw [classRuns_xp1]
      decide)
    (by
      rw [classRuns_xp1, classRuns_pp1]
      decide)

end CodeAtlas
